import Mathlib

/-!
Verification development for the DocMaintainer boundary-constrained
documentation crawler (`scripts/crawler.py`).

The Python code is shallowly embedded as executable Lean definitions:

* `urlsplitL` / `urlparseL` / `urlunsplitL` / `urlunparseL` / `urljoinL` /
  `urldefragL` model the CPython 3.11 `urllib.parse` routines the crawler
  calls (character-level, on `List Char`).  URLs are sequences of Unicode
  code points; Python's `str.lower`, `str.strip` and `str.isalpha` are
  modelled on their ASCII range (the only range exercised by URL syntax).
  The `ValueError` branches of `urlsplit` (mismatched `[`/`]` in a netloc,
  non-ASCII netloc NFKC check) are outside the model: on such inputs the
  model parses verbatim where CPython raises.
* `normalize_url` and `make_filename` are the crawler's URL helpers.
* `DocParser` with `handle_starttag` / `handle_endtag` / `handle_data`
  models the HTML extractor.  The stdlib `HTMLParser` tokenizer is
  abstracted as a stream of `HEvent`s (start tag with attributes, end
  tag, character data); `DocParser` is exactly the crawler's subclass
  logic over that stream.  The open-tag stack keeps its top at the list
  head (Python appends and pops at the end of a `list`).
* `fetchStep` / `fetchURL` model the retry loop of `crawl_docs`
  (lines 177-242); the network is a function `Web` from URL and attempt
  number to an outcome, and a fetched body is the event stream the
  tokenizer would produce from it.  Sleep durations are collected in a
  list of rationals (`delay * 2 ^ attempt` and `delay * 2` are exact in
  binary floating point for the values at issue).
* `crawlIter` / `crawlLoop` model the traversal loop (lines 162-242);
  the unbounded `while` is run on explicit fuel, and termination is
  proved separately (claim C2).  The `visited` set is the list of its
  distinct members in insertion order.
* `classify` / `renderSection` / `linkAudit` model the link-audit
  classification and report rendering (lines 268-336), and
  `crawl_docs` / `crawl_audit` the returned summary and optional report.
-/

/-! ## Python string primitives on `List Char` -/

/-- Python `c in "\t\r\n"`, the `_UNSAFE_URL_BYTES_TO_REMOVE` characters. -/
def unsafeURLByte (c : Char) : Bool :=
  c == '\t' || c == '\r' || c == '\n'

/-- The `url.replace(b, "") for b in _UNSAFE_URL_BYTES_TO_REMOVE` step of
`urlsplit`: all tabs, carriage returns and newlines are removed. -/
def removeUnsafe (l : List Char) : List Char :=
  l.filter (fun c => !unsafeURLByte c)

/-- Membership in `_WHATWG_C0_CONTROL_OR_SPACE` (code points `0x00`-`0x20`). -/
def c0OrSpace (c : Char) : Bool :=
  decide (c.toNat ≤ 0x20)

/-- `url.lstrip(_WHATWG_C0_CONTROL_OR_SPACE)`. -/
def lstripC0 (l : List Char) : List Char :=
  l.dropWhile c0OrSpace

/-- The full cleanup `urlsplit` applies to its argument before parsing. -/
def cleanURL (l : List Char) : List Char :=
  removeUnsafe (lstripC0 l)

/-- Python `str.startswith` (also used for the tuple form via `List.any`). -/
def pyStartsWith (s pre : String) : Bool :=
  pre.data.isPrefixOf s.data

/-- Python `needle in hay` on strings (substring containment). -/
def containsSub : List Char → List Char → Bool
  | n, [] => n.isEmpty
  | n, c :: cs => n.isPrefixOf (c :: cs) || containsSub n cs

/-- Python `str.lower` (ASCII range; `Char.toLower` maps `A`-`Z` only). -/
def pyLower (s : String) : String :=
  ⟨s.data.map Char.toLower⟩

/-- Python `str.strip()` whitespace (ASCII subset of Python's set). -/
def pySpace (c : Char) : Bool :=
  c == ' ' || c == '\t' || c == '\n' || c == '\r' || c == '\x0b' || c == '\x0c'

/-- Python `str.strip()`: whitespace removed from both ends. -/
def pyStrip (s : String) : String :=
  ⟨((s.data.dropWhile pySpace).reverse.dropWhile pySpace).reverse⟩

/-- Split a character list at the first occurrence of `c`;
`none` when `c` does not occur (Python `s.split(c, 1)` / `s.find(c)`). -/
def splitFirst (c : Char) : List Char → Option (List Char × List Char)
  | [] => none
  | x :: xs =>
    if x = c then some ([], xs)
    else (splitFirst c xs).map (fun p => (x :: p.1, p.2))

/-- Split a character list at the last occurrence of `c`
(`l = fst ++ c :: snd` with `c ∉ snd`); `none` when `c` does not occur. -/
def splitLast (c : Char) (l : List Char) : Option (List Char × List Char) :=
  match splitFirst c l.reverse with
  | none => none
  | some (a, b) => some (b.reverse, a.reverse)

/-! ## `urllib.parse`: splitting -/

/-- The characters allowed in a URL scheme (`scheme_chars`). -/
def schemeChar (c : Char) : Bool :=
  c.isAlpha || c.isDigit || c == '+' || c == '-' || c == '.'

/-- Scheme detection step of `urlsplit`: the text before the first `:` must
be nonempty, start with an ASCII letter and consist of `scheme_chars`;
the detected scheme is lower-cased.  `none` when no scheme is present. -/
def splitSchemeL (l : List Char) : Option (List Char × List Char) :=
  match splitFirst ':' l with
  | none => none
  | some (pre, post) =>
    match pre with
    | [] => none
    | c :: cs =>
      if c.isAlpha && (c :: cs).all schemeChar then
        some ((c :: cs).map Char.toLower, post)
      else none

/-- `_splitnetloc`: the netloc runs until the first `/`, `?` or `#`. -/
def takeUntilDelims : List Char → List Char × List Char
  | [] => ([], [])
  | x :: xs =>
    if x = '/' ∨ x = '?' ∨ x = '#' then ([], x :: xs)
    else
      let p := takeUntilDelims xs
      (x :: p.1, p.2)

/-- Netloc step of `urlsplit`: only applies when the remainder starts `//`. -/
def splitNetlocL : List Char → List Char × List Char
  | '/' :: '/' :: r => takeUntilDelims r
  | l => ([], l)

/-- Fragment step of `urlsplit`: split at the first `#` when present. -/
def splitFragmentL (l : List Char) : List Char × List Char :=
  match splitFirst '#' l with
  | none => (l, [])
  | some (a, b) => (a, b)

/-- Query step of `urlsplit`: split at the first `?` when present. -/
def splitQueryL (l : List Char) : List Char × List Char :=
  match splitFirst '?' l with
  | none => (l, [])
  | some (a, b) => (a, b)

/-- Result of `urlsplit`: the 5-tuple `(scheme, netloc, path, query, fragment)`. -/
structure USplit where
  scheme : List Char
  netloc : List Char
  path : List Char
  query : List Char
  fragment : List Char
deriving Repr, DecidableEq

/-- Stages of `urlsplit` after scheme detection. -/
def urlsplitRest (sch rest : List Char) : USplit :=
  let pn := splitNetlocL rest
  let pf := splitFragmentL pn.2
  let pq := splitQueryL pf.1
  ⟨sch, pn.1, pq.1, pq.2, pf.2⟩

/-- CPython 3.11 `urlsplit(url, scheme=dscheme, allow_fragments=True)`. -/
def urlsplitL (url0 dscheme : List Char) : USplit :=
  let u := cleanURL url0
  match splitSchemeL u with
  | some p => urlsplitRest p.1 p.2
  | none => urlsplitRest dscheme u

/-! ## `urllib.parse`: params and the 6-tuple -/

/-- Result of `urlparse`: the 6-tuple with path params split out. -/
structure UParse where
  scheme : List Char
  netloc : List Char
  path : List Char
  params : List Char
  query : List Char
  fragment : List Char
deriving Repr, DecidableEq

/-- `uses_params` (schemes whose last path segment may carry `;params`). -/
def usesParams : List (List Char) :=
  ["", "ftp", "hdl", "prospero", "http", "imap", "https", "shttp", "rtsp",
   "rtsps", "rtspu", "sip", "sips", "mms", "sftp", "tel"].map String.data

/-- `uses_relative` (schemes that support relative reference joining). -/
def usesRelative : List (List Char) :=
  ["", "ftp", "http", "gopher", "nntp", "imap", "wais", "file", "https",
   "shttp", "mms", "prospero", "rtsp", "rtsps", "rtspu", "sftp", "svn",
   "svn+ssh", "ws", "wss"].map String.data

/-- `uses_netloc` (schemes with a `//authority` component). -/
def usesNetloc : List (List Char) :=
  ["", "ftp", "http", "gopher", "nntp", "telnet", "imap", "wais", "file",
   "mms", "https", "shttp", "snews", "prospero", "rtsp", "rtsps", "rtspu",
   "rsync", "svn", "svn+ssh", "sftp", "nfs", "git", "git+ssh", "ws",
   "wss"].map String.data

/-- `_splitparams(url)`: when the path contains a `/`, the params separator
is the first `;` at or after the last `/`; otherwise the first `;`. -/
def splitparamsL (url : List Char) : List Char × List Char :=
  match splitLast '/' url with
  | some p =>
    match splitFirst ';' p.2 with
    | some q => (p.1 ++ '/' :: q.1, q.2)
    | none => (url, [])
  | none =>
    match splitFirst ';' url with
    | some q => (q.1, q.2)
    | none => (url, [])

/-- The params step of `urlparse` on top of a 5-tuple split. -/
def paramsSplit (s : USplit) : UParse :=
  if usesParams.contains s.scheme ∧ s.path.contains ';' then
    let pp := splitparamsL s.path
    ⟨s.scheme, s.netloc, pp.1, pp.2, s.query, s.fragment⟩
  else
    ⟨s.scheme, s.netloc, s.path, [], s.query, s.fragment⟩

/-- CPython 3.11 `urlparse(url, scheme=dscheme, allow_fragments=True)`. -/
def urlparseL (url0 dscheme : List Char) : UParse :=
  paramsSplit (urlsplitL url0 dscheme)

/-! ## `urllib.parse`: unsplitting -/

/-- CPython 3.11 `urlunsplit((scheme, netloc, url, query, fragment))`. -/
def urlunsplitL (scheme netloc url query fragment : List Char) : List Char :=
  let url :=
    if netloc ≠ [] ∨ (scheme ≠ [] ∧ usesNetloc.contains scheme ∧ url.take 2 ≠ ['/', '/']) then
      let url := if url ≠ [] ∧ url.take 1 ≠ ['/'] then '/' :: url else url
      '/' :: '/' :: (netloc ++ url)
    else url
  let url := if scheme ≠ [] then scheme ++ ':' :: url else url
  let url := if query ≠ [] then url ++ '?' :: query else url
  if fragment ≠ [] then url ++ '#' :: fragment else url

/-- CPython 3.11 `urlunparse`: params are re-attached with `;` first. -/
def urlunparseL (scheme netloc url params query fragment : List Char) : List Char :=
  urlunsplitL scheme netloc (if params ≠ [] then url ++ ';' :: params else url)
    query fragment

/-! ## `urljoin` and `urldefrag` -/

/-- Python `str.split('/')`. -/
def splitOnSlash : List Char → List (List Char)
  | [] => [[]]
  | c :: cs =>
    let r := splitOnSlash cs
    if c = '/' then [] :: r
    else
      match r with
      | [] => [[c]]
      | a :: rest => (c :: a) :: rest

/-- Python `'/'.join`. -/
def joinSlash : List (List Char) → List Char
  | [] => []
  | [a] => a
  | a :: rest => a ++ '/' :: joinSlash rest

/-- `segments[1:-1] = filter(None, segments[1:-1])`: drop empty segments,
keeping the first and the last. -/
def filterMiddle (segs : List (List Char)) : List (List Char) :=
  match segs with
  | [] => []
  | [a] => [a]
  | a :: rest =>
    a :: ((rest.dropLast.filter (fun s => !s.isEmpty)) ++ rest.drop (rest.length - 1))

/-- The `..`/`.` resolution loop of `urljoin` (pop on `..`, skip `.`). -/
def resolveSegs (segs : List (List Char)) : List (List Char) :=
  segs.foldl
    (fun acc seg =>
      if seg = ['.', '.'] then acc.dropLast
      else if seg = ['.'] then acc
      else acc ++ [seg])
    []

/-- CPython 3.11 `urljoin(base, url)`. -/
def urljoinL (base url : List Char) : List Char :=
  if base = [] then url
  else if url = [] then base
  else
    let b := urlparseL base []
    let u := urlparseL url b.scheme
    if u.scheme ≠ b.scheme ∨ ¬ usesRelative.contains u.scheme then url
    else if usesNetloc.contains u.scheme ∧ u.netloc ≠ [] then
      urlunparseL u.scheme u.netloc u.path u.params u.query u.fragment
    else
      let nl := if usesNetloc.contains u.scheme then b.netloc else u.netloc
      if u.path = [] ∧ u.params = [] then
        let q := if u.query = [] then b.query else u.query
        urlunparseL u.scheme nl b.path b.params q u.fragment
      else
        let bparts := splitOnSlash b.path
        let bparts := if bparts.getLast? ≠ some [] then bparts.dropLast else bparts
        let segs :=
          if u.path.take 1 = ['/'] then splitOnSlash u.path
          else filterMiddle (bparts ++ splitOnSlash u.path)
        let res := resolveSegs segs
        let res := if segs.getLast? = some ['.'] ∨ segs.getLast? = some ['.', '.'] then
            res ++ [[]]
          else res
        let joined := joinSlash res
        urlunparseL u.scheme nl (if joined = [] then ['/'] else joined)
          u.params u.query u.fragment

/-- CPython 3.11 `urldefrag(url)`: `(url without fragment, fragment)`;
the URL is returned unchanged when it contains no `#`. -/
def urldefragL (url : List Char) : List Char × List Char :=
  if url.contains '#' then
    let p := urlparseL url []
    (urlunparseL p.scheme p.netloc p.path p.params p.query [], p.fragment)
  else (url, [])

/-! ## The crawler's URL helpers (`crawler.py` lines 88-107) -/

/-- Strip all trailing `/` (Python `path.rstrip("/")`). -/
def rstripSlashes (l : List Char) : List Char :=
  (l.reverse.dropWhile (fun c => c == '/')).reverse

/-- `parsed.path.rstrip("/") or "/"`. -/
def normPath (p : List Char) : List Char :=
  match rstripSlashes p with
  | [] => ['/']
  | l => l

/-- `normalize_url` on character lists: lower-case scheme and netloc, strip
trailing slashes from the path (empty path becomes `/`), keep params and
query, drop the fragment. -/
def normalizeL (url : List Char) : List Char :=
  let p := urlparseL url []
  urlunparseL (p.scheme.map Char.toLower) (p.netloc.map Char.toLower)
    (normPath p.path) p.params p.query []

/-- `normalize_url` (crawler.py lines 88-98). -/
def normalize_url (url : String) : String :=
  ⟨normalizeL url.data⟩

/-- Remove the first occurrence of `sub` (Python `s.replace(sub, "", 1)`;
replacing the empty string once is the identity on the first position). -/
def removeFirstSub (sub : List Char) : List Char → List Char
  | [] => []
  | c :: cs =>
    if sub ≠ [] ∧ sub.isPrefixOf (c :: cs) then (c :: cs).drop sub.length
    else c :: removeFirstSub sub cs

/-- Python `s.strip('/')`. -/
def stripSlashesBoth (l : List Char) : List Char :=
  ((l.dropWhile (fun c => c == '/')).reverse.dropWhile (fun c => c == '/')).reverse

/-- `make_filename` (crawler.py lines 101-107): drop the first occurrence of
`base_path` from the URL path, strip slashes, fall back to `index.txt`,
else replace `/` by `_` and append `.txt`. -/
def make_filename (url base_path : String) : String :=
  let path := (urlparseL url.data []).path
  let relative := stripSlashesBoth (removeFirstSub base_path.data path)
  if relative = [] then "index.txt"
  else ⟨(relative.map (fun c => if c = '/' then '_' else c)) ++ ".txt".data⟩

/-! ## The HTML extractor (`DocParser`, crawler.py lines 33-81) -/

/-- Tokenizer events delivered by `html.parser.HTMLParser` to the
`DocParser` subclass: start tags (with their attribute list), end tags,
and character data. -/
inductive HEvent where
  | startTag (tag : String) (attrs : List (String × Option String))
  | endTag (tag : String)
  | dataText (s : String)
deriving Repr, DecidableEq

/-- `DocParser.IGNORE_TAGS`. -/
def IGNORE_TAGS : List String :=
  ["script", "style", "nav", "footer", "header",
   "noscript", "svg", "iframe", "button", "form"]

/-- `DocParser.SKIP_SCHEMES`. -/
def SKIP_SCHEMES : List String :=
  ["javascript:", "mailto:", "tel:", "#", "data:"]

/-- The extractor state: collected links and text fragments, the open-tag
stack (top at the head of the list) and the ignored-element depth. -/
structure DocParser where
  base_url : String
  links : List String
  text_parts : List String
  tag_stack : List String
  inside_ignored : Nat
deriving Repr, DecidableEq

/-- `dict(attrs).get(key)`: the last binding wins; a valueless attribute
maps to Python `None` (here `none`). -/
def dictGet (attrs : List (String × Option String)) (key : String) : Option String :=
  match (attrs.filter (fun p => p.1 = key)).getLast? with
  | none => none
  | some p => p.2

/-- `DocParser.handle_starttag`: push the tag, bump the ignored depth for
ignored tags, and for `<a>` record the resolved, defragmented target when
the `href` value is truthy and matches no skip scheme. -/
def handle_starttag (p : DocParser) (tag : String)
    (attrs : List (String × Option String)) : DocParser :=
  let p := { p with
    tag_stack := tag :: p.tag_stack,
    inside_ignored :=
      if IGNORE_TAGS.contains tag then p.inside_ignored + 1 else p.inside_ignored }
  if tag = "a" then
    match dictGet attrs "href" with
    | some href =>
      if href ≠ "" ∧ ¬ (SKIP_SCHEMES.any (fun s => pyStartsWith href s)) then
        { p with links :=
            p.links ++ [⟨(urldefragL (urljoinL p.base_url.data href.data)).1⟩] }
      else p
    | none => p
  else p

/-- The unwind loop of `DocParser.handle_endtag`: pop until the matching
tag (or the stack empties), decrementing the ignored depth for every
ignored tag popped (`max(0, d-1)` is `Nat` subtraction). -/
def unwindStack : List String → Nat → String → List String × Nat
  | [], d, _ => ([], d)
  | t :: rest, d, tag =>
    let d2 := if IGNORE_TAGS.contains t then d - 1 else d
    if t = tag then (rest, d2) else unwindStack rest d2 tag

/-- `DocParser.handle_endtag`. -/
def handle_endtag (p : DocParser) (tag : String) : DocParser :=
  let sd := unwindStack p.tag_stack p.inside_ignored tag
  { p with tag_stack := sd.1, inside_ignored := sd.2 }

/-- `DocParser.handle_data`: capture the stripped fragment only when the
ignored depth is zero and the stripped text is nonempty. -/
def handle_data (p : DocParser) (s : String) : DocParser :=
  if p.inside_ignored > 0 then p
  else
    let t := pyStrip s
    if t ≠ "" then { p with text_parts := p.text_parts ++ [t] } else p

/-- Dispatch one tokenizer event to the corresponding handler. -/
def feedEvent (p : DocParser) : HEvent → DocParser
  | .startTag t a => handle_starttag p t a
  | .endTag t => handle_endtag p t
  | .dataText s => handle_data p s

/-- `DocParser(base).feed(html)`: fold the event stream of the document. -/
def runParser (base : String) (evs : List HEvent) : DocParser :=
  evs.foldl feedEvent ⟨base, [], [], [], 0⟩

/-! ## The fetch loop with retries (crawler.py lines 177-242) -/

/-- One recorded error (`errors.append({...})`, lines 224 and 235). -/
structure CrawlError where
  url : String
  error : String
  attempt : Nat
deriving Repr, DecidableEq

/-- Outcome of one fetch attempt of one URL: a response with its
`Content-Type` and tokenized body, an `HTTPError` with its status code,
or a transport-level `URLError`/`OSError` with its message. -/
inductive FetchOutcome where
  | response (contentType : String) (body : List HEvent)
  | httpError (code : Nat)
  | transportError (msg : String)

/-- The network: what fetching a given URL yields on a given attempt. -/
abbrev Web := String → Nat → FetchOutcome

/-- `max_retries = 3` (line 178). -/
def max_retries : Nat := 3

/-- The retryable HTTP status set (line 226). -/
def retryableCodes : List Nat := [429, 500, 502, 503, 504]

/-- How the retry loop ends for one URL: a successful HTML response,
a non-HTML response (skip), or failure after the recorded errors. -/
inductive FetchFinal where
  | success (body : List HEvent)
  | skipNonHTML
  | failed
deriving Repr, DecidableEq

/-- The `for attempt in range(1, max_retries + 1)` body: returns the final
outcome, the errors appended (one per failed attempt, in order), and the
back-off sleeps performed between attempts.  `fuel` counts the remaining
loop iterations and is `max_retries` at entry, so the `0` case is never
reached from `fetchURL`. -/
def fetchStep (web : Web) (url : String) (delay : ℚ) :
    Nat → Nat → FetchFinal × List CrawlError × List ℚ
  | _, 0 => (.failed, [], [])
  | attempt, fuel + 1 =>
    match web url attempt with
    | .response ct body =>
      if containsSub "text/html".data ct.data then (.success body, [], [])
      else (.skipNonHTML, [], [])
    | .httpError code =>
      let e : CrawlError := ⟨url, "HTTP " ++ toString code, attempt⟩
      if retryableCodes.contains code ∧ attempt < max_retries then
        let r := fetchStep web url delay (attempt + 1) fuel
        (r.1, e :: r.2.1, (delay * 2 ^ attempt) :: r.2.2)
      else (.failed, [e], [])
    | .transportError msg =>
      let e : CrawlError := ⟨url, msg, attempt⟩
      if attempt < max_retries then
        let r := fetchStep web url delay (attempt + 1) fuel
        (r.1, e :: r.2.1, (delay * 2) :: r.2.2)
      else (.failed, [e], [])

/-- Fetch one URL with the full retry budget. -/
def fetchURL (web : Web) (url : String) (delay : ℚ) :
    FetchFinal × List CrawlError × List ℚ :=
  fetchStep web url delay 1 max_retries

/-! ## The traversal engine (crawler.py lines 135-242) -/

/-- The mutable state of `crawl_docs`: the pending queue, the visited set
(list of its distinct normalized members in insertion order), the visit
order of original URLs, the error log, the external-link map
(`dict` keyed by source page, insertion-ordered), and the names of the
files written to the output directory. -/
structure CrawlState where
  queue : List String
  visited : List String
  visited_original : List String
  errors : List CrawlError
  external_links : List (String × List (String × String))
  saved_files : List String
deriving Repr, DecidableEq

/-- `all_external_links.setdefault(url, []).append(pair)`. -/
def extAppend : List (String × List (String × String)) → String →
    String × String → List (String × List (String × String))
  | [], page, pr => [(page, [pr])]
  | (k, v) :: rest, page, pr =>
    if k = page then (k, v ++ [pr]) :: rest
    else (k, v) :: extAppend rest page pr

/-- `urllib.parse.urlparse(link).netloc.lower()` (line 207). -/
def domainOf (link : String) : String :=
  ⟨(urlparseL link.data []).netloc.map Char.toLower⟩

/-- The body of the `for link in parser.links` loop (lines 205-217):
in-boundary links are enqueued when their normalized form is neither
visited nor pending; out-of-boundary links are recorded for the audit. -/
def processLink (basePref : String) (visited : List String) (page : String)
    (acc : List String × List (String × List (String × String)))
    (link : String) : List String × List (String × List (String × String)) :=
  let ln := normalize_url link
  if pyStartsWith link basePref then
    if ln ∉ visited ∧ ¬ acc.1.any (fun q => normalize_url q = ln) then
      (acc.1 ++ [link], acc.2)
    else acc
  else
    (acc.1, extAppend acc.2 page (link, domainOf link))

/-- One iteration of the `while` loop after the head `url` was popped
(lines 164-242): discard if already visited or out of boundary, else mark
visited, fetch, and on success write the file and process the links. -/
def crawlIter (web : Web) (basePref base_path : String) (delay : ℚ)
    (st : CrawlState) (url : String) : CrawlState :=
  let norm := normalize_url url
  if norm ∈ st.visited then st
  else if ¬ pyStartsWith url basePref then st
  else
    let st1 := { st with
      visited := st.visited ++ [norm],
      visited_original := st.visited_original ++ [url] }
    match fetchURL web url delay with
    | (.success body, es, _) =>
      let pr := runParser url body
      let qe := pr.links.foldl (processLink basePref st1.visited url)
        (st1.queue, st1.external_links)
      { st1 with
        queue := qe.1,
        external_links := qe.2,
        saved_files := st1.saved_files ++ [make_filename url base_path],
        errors := st1.errors ++ es }
    | (.skipNonHTML, es, _) => { st1 with errors := st1.errors ++ es }
    | (.failed, es, _) => { st1 with errors := st1.errors ++ es }

/-- The `while queue and len(visited) < max_pages` loop (line 162), run on
explicit fuel; a state in which the guard fails is returned unchanged. -/
def crawlLoop (web : Web) (basePref base_path : String) (delay : ℚ)
    (max_pages : Nat) : Nat → CrawlState → CrawlState
  | 0, st => st
  | fuel + 1, st =>
    match st.queue with
    | [] => st
    | url :: rest =>
      if st.visited.length < max_pages then
        crawlLoop web basePref base_path delay max_pages fuel
          (crawlIter web basePref base_path delay { st with queue := rest } url)
      else st

/-- `base_prefix = f"{scheme}://{netloc}{base_path}"` (line 133). -/
def basePrefOf (start_url base_path : String) : String :=
  let p := urlparseL start_url.data []
  ⟨p.scheme ++ ':' :: '/' :: '/' :: (p.netloc ++ base_path.data)⟩

/-- The initial frontier state (lines 135-141). -/
def initState (start_url : String) : CrawlState :=
  ⟨[start_url], [], [], [], [], []⟩

/-- A whole run of the traversal loop from the initial state, with the
boundary derived from the start URL as in `crawl_docs`. -/
def crawlRun (web : Web) (start_url base_path : String) (max_pages : Nat)
    (delay : ℚ) (fuel : Nat) : CrawlState :=
  crawlLoop web (basePrefOf start_url base_path) base_path delay max_pages fuel
    (initState start_url)

/-! ## Link audit and summary (crawler.py lines 255-351) -/

/-- `official_set = {d.lower().strip() for d in official_domains}`;
membership in the set is membership in this list. -/
def officialSetOf (domains : List String) : List String :=
  domains.map (fun d => pyStrip (pyLower d))

/-- The classification loop (lines 278-283): every recorded external
`(href, domain)` pair goes to the official or the third-party `dict`
(keyed by domain, `setdefault`-appended with `(href, source page)`). -/
def classify (allExt : List (String × List (String × String)))
    (offSet : List String) :
    List (String × List (String × String)) × List (String × List (String × String)) :=
  allExt.foldl
    (fun acc pe =>
      pe.2.foldl
        (fun acc2 hd =>
          if hd.2 ∈ offSet then (extAppend acc2.1 hd.2 (hd.1, pe.1), acc2.2)
          else (acc2.1, extAppend acc2.2 hd.2 (hd.1, pe.1)))
        acc)
    ([], [])

/-- Python's `<` on strings: code-point lexicographic, strict. -/
def listLtChar : List Char → List Char → Bool
  | [], [] => false
  | [], _ :: _ => true
  | _ :: _, [] => false
  | a :: as, b :: bs =>
    if a < b then true else if b < a then false else listLtChar as bs

/-- Python's `<=` on strings: code-point lexicographic. -/
def listLeChar : List Char → List Char → Bool
  | [], _ => true
  | _ :: _, [] => false
  | a :: as, b :: bs =>
    if a < b then true else if b < a then false else listLeChar as bs

/-- Python `sorted` comparison on strings (strict part). -/
def pyStrLt (a b : String) : Bool :=
  listLtChar a.data b.data

/-- Python `sorted` comparison on strings. -/
def strLeB (a b : String) : Bool :=
  listLeChar a.data b.data

/-- Python `sorted` comparison on `(href, source)` pairs (tuple order). -/
def pairLeB (a b : String × String) : Bool :=
  if a.1 = b.1 then strLeB a.2 b.2 else pyStrLt a.1 b.1

/-- Insert into an ascending list (used to model Python `sorted`). -/
def insertSorted (le : α → α → Bool) (x : α) : List α → List α
  | [] => [x]
  | y :: ys => if le x y then x :: y :: ys else y :: insertSorted le x ys

/-- Ascending sort (models Python `sorted` for the total orders used here). -/
def sortByB (le : α → α → Bool) (l : List α) : List α :=
  l.foldr (insertSorted le) []

/-- The `seen` de-duplication loop of the report sections (lines 298-302 and
316-321): of the sorted `(href, source)` pairs, keep the first pair for
each distinct `href` (the rendered entry shows exactly that pair's source). -/
def dedupSorted : List (String × String) → List String → List (String × String)
  | [], _ => []
  | (h, s) :: rest, seen =>
    if h ∈ seen then dedupSorted rest seen
    else (h, s) :: dedupSorted rest (h :: seen)

/-- `dict` lookup in an insertion-ordered association list. -/
def lookupList (m : List (String × List (String × String))) (k : String) :
    List (String × String) :=
  match m.find? (fun p => p.1 = k) with
  | some p => p.2
  | none => []

/-- One report section: domains in sorted order, and per domain the sorted,
href-de-duplicated `(href, source)` entries that get rendered. -/
def renderSection (m : List (String × List (String × String))) :
    List (String × List (String × String)) :=
  (sortByB strLeB (m.map Prod.fst)).map
    (fun d => (d, dedupSorted (sortByB pairLeB (lookupList m d)) []))

/-- `dead_links = [e for e in errors if "HTTP" in e.get("error", "")]`. -/
def deadLinksOf (errors : List CrawlError) : List CrawlError :=
  errors.filter (fun e => containsSub "HTTP".data e.error.data)

/-- The content of `_link_audit.md`: the official section, the third-party
section (each as rendered domain groupings) and the dead-link list. -/
structure AuditReport where
  official : List (String × List (String × String))
  thirdParty : List (String × List (String × String))
  dead : List CrawlError
deriving Repr, DecidableEq

/-- Build the audit report (lines 273-333). -/
def linkAudit (allExt : List (String × List (String × String)))
    (domains : List String) (errors : List CrawlError) : AuditReport :=
  let cls := classify allExt (officialSetOf domains)
  ⟨renderSection cls.1, renderSection cls.2, deadLinksOf errors⟩

/-- The summary dict returned by `crawl_docs` (lines 255-263 and 335).
Wall-clock fields (`elapsed_seconds`, `timestamp`) are outside the model. -/
structure CrawlSummary where
  start_url : String
  base_path : String
  pages_crawled : Nat
  errors : Nat
  error_details : List CrawlError
  link_audit : Option String
deriving Repr, DecidableEq

/-- Python truthiness of the `official_domains` argument (line 270):
`None` and the empty list are both falsy. -/
def pyTruthyList : Option (List String) → Bool
  | none => false
  | some l => !l.isEmpty

/-- `crawl_docs` run to completion on the given fuel: the returned summary.
The audit path is the constant report file name when the audit branch runs. -/
def crawl_docs (web : Web) (start_url base_path : String) (max_pages : Nat)
    (delay : ℚ) (official_domains : Option (List String)) (fuel : Nat) :
    CrawlSummary :=
  let fin := crawlRun web start_url base_path max_pages delay fuel
  { start_url := start_url
    base_path := base_path
    pages_crawled := fin.visited.length
    errors := fin.errors.length
    error_details := fin.errors
    link_audit := if pyTruthyList official_domains then some "_link_audit.md" else none }

/-- The `_link_audit.md` report produced by the same run, when the audit
branch runs at all (line 270: the argument must be truthy). -/
def crawl_audit (web : Web) (start_url base_path : String) (max_pages : Nat)
    (delay : ℚ) (official_domains : Option (List String)) (fuel : Nat) :
    Option AuditReport :=
  if pyTruthyList official_domains then
    let fin := crawlRun web start_url base_path max_pages delay fuel
    some (linkAudit fin.external_links (official_domains.getD []) fin.errors)
  else none

/-! ## Traversal invariants -/

/-- The state invariant maintained by the traversal loop: the visited set
is exactly the normalized visit order (hence has the same size), it has no
duplicates, every visited URL starts with the boundary, and every recorded
external link does not (as an original string). -/
def CrawlInv (bp : String) (st : CrawlState) : Prop :=
  st.visited = st.visited_original.map normalize_url ∧
  st.visited.Nodup ∧
  (∀ u ∈ st.visited_original, pyStartsWith u bp = true) ∧
  (∀ pe ∈ st.external_links, ∀ hd ∈ pe.2, pyStartsWith hd.1 bp = false)

/-- The visit branch of one loop iteration, with the admission checks
discharged: the state after marking visited, fetching, and (on success)
saving the file and processing the discovered links. -/
def visitResult (web : Web) (bp base_path : String) (delay : ℚ)
    (st : CrawlState) (url : String) : CrawlState :=
  let st1 := { st with
    visited := st.visited ++ [normalize_url url],
    visited_original := st.visited_original ++ [url] }
  match fetchURL web url delay with
  | (.success body, es, _) =>
    let pr := runParser url body
    let qe := pr.links.foldl (processLink bp st1.visited url)
      (st1.queue, st1.external_links)
    { st1 with
      queue := qe.1,
      external_links := qe.2,
      saved_files := st1.saved_files ++ [make_filename url base_path],
      errors := st1.errors ++ es }
  | (.skipNonHTML, es, _) => { st1 with errors := st1.errors ++ es }
  | (.failed, es, _) => { st1 with errors := st1.errors ++ es }

/-- The loop guard has failed: the queue is empty or the budget is reached. -/
def crawlDone (max_pages : Nat) (st : CrawlState) : Prop :=
  st.queue = [] ∨ max_pages ≤ st.visited.length

/-- A web on which every page links to `https://EXAMPLE.com/docs/x`:
the link's original form is outside the boundary (upper-case host), but its
normalized form is inside it. -/
def webC1 : Web := fun _ _ =>
  .response "text/html" [.startTag "a" [("href", some "https://EXAMPLE.com/docs/x")]]

/-- A web that always answers HTTP 503 (used by claim C10). -/
def web503 : Web := fun _ _ => .httpError 503

/-- The link, if any, that a single tokenizer event contributes: only a
start tag of `a` whose `href` is present, non-empty, and free of the skip
schemes, resolved against `base` and defragmented.  This function does not
look at the parser state at all. -/
def linkFrom (base : String) : HEvent → Option String
  | .startTag t attrs =>
    if t = "a" then
      match dictGet attrs "href" with
      | some href =>
        if href ≠ "" ∧ ¬ (SKIP_SCHEMES.any (fun s => pyStartsWith href s)) then
          some ⟨(urldefragL (urljoinL base.data href.data)).1⟩
        else none
      | none => none
    else none
  | .endTag _ => none
  | .dataText _ => none

/-- The explicit string shape produced by `urlunsplit` with empty fragment:
optional `scheme:`, a middle part (either `//netloc ++ path` or a bare
path), and an optional `?query`. -/
def buildO (s mid q : List Char) : List Char :=
  (if s ≠ [] then s ++ [':'] else []) ++ mid ++
  (if q ≠ [] then '?' :: q else [])

theorem extAppend_forall {P : String × String → Prop}
    (m : List (String × List (String × String))) (page : String)
    (pr : String × String)
    (hm : ∀ pe ∈ m, ∀ hd ∈ pe.2, P hd) (hpr : P pr) :
    ∀ pe ∈ extAppend m page pr, ∀ hd ∈ pe.2, P hd := by
  induction m with
  | nil =>
    intro pe hpe hd hhd
    simp only [extAppend, List.mem_singleton] at hpe
    subst hpe
    simp only [List.mem_singleton] at hhd
    subst hhd
    exact hpr
  | cons kv rest ih =>
    intro pe hpe hd hhd
    obtain ⟨k, v⟩ := kv
    by_cases hk : k = page
    · simp only [extAppend, if_pos hk, List.mem_cons] at hpe
      rcases hpe with h1 | h2
      · subst h1
        rcases List.mem_append.mp hhd with h | h
        · exact hm (k, v) (by simp) hd h
        · simp only [List.mem_singleton] at h
          subst h
          exact hpr
      · exact hm pe (List.mem_cons_of_mem _ h2) hd hhd
    · simp only [extAppend, if_neg hk, List.mem_cons] at hpe
      rcases hpe with h1 | h2
      · subst h1
        exact hm (k, v) (by simp) hd hhd
      · exact ih (fun pe hpe => hm pe (List.mem_cons_of_mem _ hpe)) pe h2 hd hhd

theorem processLink_foldl_external (bp : String) (visited : List String)
    (page : String) (links : List String)
    (acc : List String × List (String × List (String × String)))
    (h : ∀ pe ∈ acc.2, ∀ hd ∈ pe.2, pyStartsWith hd.1 bp = false) :
    ∀ pe ∈ (links.foldl (processLink bp visited page) acc).2,
      ∀ hd ∈ pe.2, pyStartsWith hd.1 bp = false := by
  induction links generalizing acc with
  | nil => exact h
  | cons l rest ih =>
    simp only [List.foldl_cons]
    apply ih
    unfold processLink
    by_cases hs : pyStartsWith l bp = true
    · simp only [hs, if_true]
      split
      · exact h
      · exact h
    · simp only [hs]
      rw [if_neg (by simp [hs])]
      exact extAppend_forall acc.2 page _ h (by simpa using hs)

theorem crawlIter_already_visited (web : Web) (bp base_path : String) (delay : ℚ)
    (st : CrawlState) (url : String) (h1 : normalize_url url ∈ st.visited) :
    crawlIter web bp base_path delay st url = st := by
  simp [crawlIter, h1]

theorem crawlIter_out_of_boundary (web : Web) (bp base_path : String) (delay : ℚ)
    (st : CrawlState) (url : String) (h1 : normalize_url url ∉ st.visited)
    (h2 : pyStartsWith url bp = false) :
    crawlIter web bp base_path delay st url = st := by
  simp [crawlIter, h1, h2]

theorem crawlIter_visit (web : Web) (bp base_path : String) (delay : ℚ)
    (st : CrawlState) (url : String) (h1 : normalize_url url ∉ st.visited)
    (h2 : pyStartsWith url bp = true) :
    crawlIter web bp base_path delay st url =
      visitResult web bp base_path delay st url := by
  simp [crawlIter, visitResult, h1, h2]

theorem visitResult_inv (web : Web) (bp base_path : String) (delay : ℚ)
    (st : CrawlState) (url : String) (h : CrawlInv bp st)
    (h1 : normalize_url url ∉ st.visited) (h2 : pyStartsWith url bp = true) :
    CrawlInv bp (visitResult web bp base_path delay st url) := by
  obtain ⟨hmap, hnod, hvis, hext⟩ := h
  have hmap1 : st.visited ++ [normalize_url url] =
      (st.visited_original ++ [url]).map normalize_url := by
    simp [hmap]
  have hnod1 : (st.visited ++ [normalize_url url]).Nodup := by
    simp [List.nodup_append, hnod, h1]
  have hvis1 : ∀ u ∈ st.visited_original ++ [url], pyStartsWith u bp = true := by
    intro u hu
    rcases List.mem_append.mp hu with hm | hm
    · exact hvis u hm
    · simp only [List.mem_singleton] at hm
      subst hm
      exact h2
  unfold visitResult
  rcases hfe : fetchURL web url delay with ⟨ff, es, ws⟩
  cases ff with
  | success body =>
    exact ⟨hmap1, hnod1, hvis1, processLink_foldl_external bp _ url _ _ hext⟩
  | skipNonHTML => exact ⟨hmap1, hnod1, hvis1, hext⟩
  | failed => exact ⟨hmap1, hnod1, hvis1, hext⟩

theorem crawlIter_inv (web : Web) (bp base_path : String) (delay : ℚ)
    (st : CrawlState) (url : String) (h : CrawlInv bp st) :
    CrawlInv bp (crawlIter web bp base_path delay st url) := by
  by_cases h1 : normalize_url url ∈ st.visited
  · rw [crawlIter_already_visited web bp base_path delay st url h1]
    exact h
  · by_cases h2 : pyStartsWith url bp = true
    · rw [crawlIter_visit web bp base_path delay st url h1 h2]
      exact visitResult_inv web bp base_path delay st url h h1 h2
    · rw [crawlIter_out_of_boundary web bp base_path delay st url h1
        (by simpa using h2)]
      exact h

theorem crawlLoop_cons (web : Web) (bp base_path : String) (delay : ℚ)
    (max_pages fuel : Nat) (st : CrawlState) (url : String) (rest : List String)
    (hq : st.queue = url :: rest) (hb : st.visited.length < max_pages) :
    crawlLoop web bp base_path delay max_pages (fuel + 1) st =
      crawlLoop web bp base_path delay max_pages fuel
        (crawlIter web bp base_path delay { st with queue := rest } url) := by
  conv_lhs => unfold crawlLoop
  rw [hq]
  simp [hb]

theorem crawlLoop_stop (web : Web) (bp base_path : String) (delay : ℚ)
    (max_pages fuel : Nat) (st : CrawlState)
    (h : st.queue = [] ∨ max_pages ≤ st.visited.length) :
    crawlLoop web bp base_path delay max_pages fuel st = st := by
  cases fuel with
  | zero => rfl
  | succ n =>
    unfold crawlLoop
    rcases h with h | h
    · rw [h]
    · rcases hq : st.queue with _ | ⟨url, rest⟩
      · rfl
      · simp [Nat.not_lt.mpr h]

theorem crawlLoop_inv (web : Web) (bp base_path : String) (delay : ℚ)
    (max_pages fuel : Nat) (st : CrawlState) (h : CrawlInv bp st) :
    CrawlInv bp (crawlLoop web bp base_path delay max_pages fuel st) := by
  induction fuel generalizing st with
  | zero => exact h
  | succ n ih =>
    rcases hq : st.queue with _ | ⟨url, rest⟩
    · rw [crawlLoop_stop web bp base_path delay max_pages (n + 1) st (Or.inl hq)]
      exact h
    · by_cases hb : st.visited.length < max_pages
      · rw [crawlLoop_cons web bp base_path delay max_pages n st url rest hq hb]
        exact ih _ (crawlIter_inv web bp base_path delay _ url h)
      · rw [crawlLoop_stop web bp base_path delay max_pages (n + 1) st
          (Or.inr (Nat.not_lt.mp hb))]
        exact h

theorem initState_inv (bp start_url : String) : CrawlInv bp (initState start_url) := by
  refine ⟨rfl, List.nodup_nil, ?_, ?_⟩ <;> intro u hu <;> simp [initState] at hu

/-! ## Budget and termination -/

theorem visitResult_visited (web : Web) (bp base_path : String) (delay : ℚ)
    (st : CrawlState) (url : String) :
    (visitResult web bp base_path delay st url).visited =
      st.visited ++ [normalize_url url] := by
  unfold visitResult
  rcases fetchURL web url delay with ⟨ff, es, ws⟩
  cases ff <;> rfl

theorem crawlIter_dichotomy (web : Web) (bp base_path : String) (delay : ℚ)
    (st : CrawlState) (url : String) :
    crawlIter web bp base_path delay st url = st ∨
      (crawlIter web bp base_path delay st url).visited =
        st.visited ++ [normalize_url url] := by
  by_cases h1 : normalize_url url ∈ st.visited
  · exact Or.inl (crawlIter_already_visited web bp base_path delay st url h1)
  · by_cases h2 : pyStartsWith url bp = true
    · right
      rw [crawlIter_visit web bp base_path delay st url h1 h2]
      exact visitResult_visited web bp base_path delay st url
    · exact Or.inl (crawlIter_out_of_boundary web bp base_path delay st url h1
        (by simpa using h2))

theorem crawlIter_length_le (web : Web) (bp base_path : String) (delay : ℚ)
    (st : CrawlState) (url : String) :
    (crawlIter web bp base_path delay st url).visited.length ≤
      st.visited.length + 1 := by
  rcases crawlIter_dichotomy web bp base_path delay st url with h | h
  · rw [h]; omega
  · rw [h]; simp

theorem crawlLoop_budget (web : Web) (bp base_path : String) (delay : ℚ)
    (max_pages fuel : Nat) (st : CrawlState)
    (h : st.visited.length ≤ max_pages) :
    (crawlLoop web bp base_path delay max_pages fuel st).visited.length ≤
      max_pages := by
  induction fuel generalizing st with
  | zero => exact h
  | succ n ih =>
    rcases hq : st.queue with _ | ⟨url, rest⟩
    · rw [crawlLoop_stop web bp base_path delay max_pages (n + 1) st (Or.inl hq)]
      exact h
    · by_cases hb : st.visited.length < max_pages
      · rw [crawlLoop_cons web bp base_path delay max_pages n st url rest hq hb]
        apply ih
        have := crawlIter_length_le web bp base_path delay
          { st with queue := rest } url
        simp only [] at this
        omega
      · rw [crawlLoop_stop web bp base_path delay max_pages (n + 1) st
          (Or.inr (Nat.not_lt.mp hb))]
        exact h

theorem crawl_term_aux (web : Web) (bp base_path : String) (delay : ℚ)
    (max_pages : Nat) :
    ∀ r q (st : CrawlState), max_pages - st.visited.length ≤ r →
      st.queue.length ≤ q →
      ∃ n, crawlDone max_pages
        (crawlLoop web bp base_path delay max_pages n st) := by
  intro r
  induction r with
  | zero =>
    intro q st hr _
    refine ⟨0, Or.inr ?_⟩
    show max_pages ≤ st.visited.length
    omega
  | succ r ihr =>
    intro q
    induction q with
    | zero =>
      intro st _ hq
      refine ⟨0, Or.inl ?_⟩
      show st.queue = []
      exact List.eq_nil_of_length_eq_zero (by omega)
    | succ q ihq =>
      intro st hr hq
      rcases hqe : st.queue with _ | ⟨url, rest⟩
      · exact ⟨0, Or.inl hqe⟩
      · by_cases hb : st.visited.length < max_pages
        · rcases crawlIter_dichotomy web bp base_path delay
            { st with queue := rest } url with hd | hd
          · have hlen : rest.length ≤ q := by
              have : st.queue.length = rest.length + 1 := by rw [hqe]; rfl
              omega
            obtain ⟨n, hn⟩ := ihq (crawlIter web bp base_path delay
              { st with queue := rest } url) (by rw [hd]; simpa using hr)
              (by rw [hd]; exact hlen)
            exact ⟨n + 1, by
              rwa [crawlLoop_cons web bp base_path delay max_pages n st url rest
                hqe hb]⟩
          · obtain ⟨n, hn⟩ := ihr (crawlIter web bp base_path delay
              { st with queue := rest } url).queue.length
              (crawlIter web bp base_path delay { st with queue := rest } url)
              (by rw [hd]; simp only [List.length_append, List.length_singleton]; omega)
              le_rfl
            exact ⟨n + 1, by
              rwa [crawlLoop_cons web bp base_path delay max_pages n st url rest
                hqe hb]⟩
        · exact ⟨0, Or.inr (Nat.not_lt.mp hb)⟩

/-! ## Claims C1, C2, C3 -/

/-- Claim C1 (counterexample): the claim that every `(href, domain)` pair
recorded in `externalLinks` has its normalized form outside
`boundaryPrefix` is false: crawling `https://example.com/docs/a` with
boundary `https://example.com/docs/`, the link `https://EXAMPLE.com/docs/x`
is recorded as external (its original form does not start with the
boundary), yet its normalized form `https://example.com/docs/x` lies
inside the boundary. -/
theorem c1_counterexample :
    (crawlRun webC1 "https://example.com/docs/a" "/docs/" 10 1 5).external_links =
      [("https://example.com/docs/a",
        [("https://EXAMPLE.com/docs/x", "example.com")])] ∧
    pyStartsWith (normalize_url "https://EXAMPLE.com/docs/x")
      (basePrefOf "https://example.com/docs/a" "/docs/") = true := by
  decide

/-- Claim C1 (amended): during any crawl run, every fetched URL (every
entry of the visit order) starts with `boundaryPrefix`, the visited set is
exactly the normalized visit order, and every `(href, domain)` pair
recorded in `externalLinks` is a link whose original string form does not
start with `boundaryPrefix` (its normalized form may still lie inside,
since the boundary test is on the original link text). -/
theorem c1_boundary_amended (web : Web) (start_url base_path : String)
    (max_pages : Nat) (delay : ℚ) (fuel : Nat) :
    (∀ u ∈ (crawlRun web start_url base_path max_pages delay fuel).visited_original,
      pyStartsWith u (basePrefOf start_url base_path) = true) ∧
    (crawlRun web start_url base_path max_pages delay fuel).visited =
      (crawlRun web start_url base_path max_pages delay fuel).visited_original.map
        normalize_url ∧
    (∀ pe ∈ (crawlRun web start_url base_path max_pages delay fuel).external_links,
      ∀ hd ∈ pe.2, pyStartsWith hd.1 (basePrefOf start_url base_path) = false) := by
  have h := crawlLoop_inv web (basePrefOf start_url base_path) base_path delay
    max_pages fuel (initState start_url)
    (initState_inv (basePrefOf start_url base_path) start_url)
  exact ⟨h.2.2.1, h.1, h.2.2.2⟩

/-- Witness for C1: the amended theorem applied to the concrete `webC1`
run: the visited start URL is inside the boundary, and the recorded
external link's original form is outside it. -/
theorem c1_witness :
    pyStartsWith "https://example.com/docs/a"
      (basePrefOf "https://example.com/docs/a" "/docs/") = true ∧
    pyStartsWith "https://EXAMPLE.com/docs/x"
      (basePrefOf "https://example.com/docs/a" "/docs/") = false := by
  have h := c1_boundary_amended webC1 "https://example.com/docs/a" "/docs/" 10 1 5
  refine ⟨h.1 "https://example.com/docs/a" (by decide), ?_⟩
  exact h.2.2 ("https://example.com/docs/a",
      [("https://EXAMPLE.com/docs/x", "example.com")]) (by decide)
    ("https://EXAMPLE.com/docs/x", "example.com") (by decide)

/-- Claim C2 (confirmed): for every run and every `pageBudget ≥ 0`, the
number of visited (normalized) URLs never exceeds `pageBudget`
(for any amount of fuel), and the traversal terminates: with enough fuel
the loop reaches a state it never leaves, and in that state the queue is
empty or the visited count equals `pageBudget` — whichever came first. -/
theorem c2_budget_respected (web : Web) (start_url base_path : String)
    (max_pages : Nat) (delay : ℚ) :
    (∀ fuel,
      (crawlRun web start_url base_path max_pages delay fuel).visited.length ≤
        max_pages) ∧
    ∃ n, ((crawlRun web start_url base_path max_pages delay n).queue = [] ∨
        (crawlRun web start_url base_path max_pages delay n).visited.length =
          max_pages) ∧
      ∀ m, crawlLoop web (basePrefOf start_url base_path) base_path delay
          max_pages m (crawlRun web start_url base_path max_pages delay n) =
        crawlRun web start_url base_path max_pages delay n := by
  have hbud : ∀ fuel,
      (crawlRun web start_url base_path max_pages delay fuel).visited.length ≤
        max_pages := by
    intro fuel
    exact crawlLoop_budget web (basePrefOf start_url base_path) base_path delay
      max_pages fuel (initState start_url) (Nat.zero_le _)
  refine ⟨hbud, ?_⟩
  obtain ⟨n, hn⟩ := crawl_term_aux web (basePrefOf start_url base_path) base_path
    delay max_pages max_pages 1 (initState start_url)
    (Nat.sub_le _ _) (le_refl 1)
  refine ⟨n, ?_, ?_⟩
  · rcases hn with h | h
    · exact Or.inl h
    · exact Or.inr (Nat.le_antisymm (hbud n) h)
  · intro m
    apply crawlLoop_stop
    exact hn

/-- Claim C3 (confirmed): in every run each normalized URL appears at most
once in the visit order, the visit order has exactly as many entries as
the visited set, and the summary's `pages_crawled` field equals the size
of the visited set. -/
theorem c3_no_duplicate_visits (web : Web) (start_url base_path : String)
    (max_pages : Nat) (delay : ℚ) (od : Option (List String)) (fuel : Nat) :
    ((crawlRun web start_url base_path max_pages delay fuel).visited_original.map
      normalize_url).Nodup ∧
    (crawlRun web start_url base_path max_pages delay fuel).visited_original.length =
      (crawlRun web start_url base_path max_pages delay fuel).visited.length ∧
    (crawl_docs web start_url base_path max_pages delay od fuel).pages_crawled =
      (crawlRun web start_url base_path max_pages delay fuel).visited.length := by
  have h := crawlLoop_inv web (basePrefOf start_url base_path) base_path delay
    max_pages fuel (initState start_url)
    (initState_inv (basePrefOf start_url base_path) start_url)
  refine ⟨?_, ?_, rfl⟩
  · have h1 := h.1
    have h2 := h.2.1
    rw [show (crawlRun web start_url base_path max_pages delay fuel) =
      crawlLoop web (basePrefOf start_url base_path) base_path delay max_pages
        fuel (initState start_url) from rfl, ← h1]
    exact h2
  · rw [show (crawlRun web start_url base_path max_pages delay fuel) =
      crawlLoop web (basePrefOf start_url base_path) base_path delay max_pages
        fuel (initState start_url) from rfl, h.1]
    simp

/-! ## Claims C5, C7, C9, C10 -/

/-- Claim C5 (counterexample): the claim that transport-level failures are
retried with a wait of `requestDelay * 2 ^ attempt` is false: with
`delay = 1`, a URL failing with a transport error on every attempt sleeps
`[2, 2]` between its three attempts (the code's fixed `delay * 2`), not
the exponential `[1 * 2 ^ 1, 1 * 2 ^ 2] = [2, 4]` the claim prescribes. -/
theorem c5_counterexample :
    (fetchURL (fun _ _ => .transportError "timed out") "https://h/a" 1).2.2 =
      [2, 2] ∧
    ((fetchURL (fun _ _ => .transportError "timed out") "https://h/a" 1).2.2 ≠
      [(1 : ℚ) * 2 ^ 1, (1 : ℚ) * 2 ^ 2]) := by
  have hf : (fetchURL (fun _ _ => .transportError "timed out") "https://h/a" 1).2.2 =
      [2, 2] := by
    simp [fetchURL, fetchStep, max_retries]
  refine ⟨hf, ?_⟩
  rw [hf]
  intro hcontra
  norm_num at hcontra

/-- Claim C5 (amended): a retryable HTTP status (in `{429,500,502,503,504}`)
is retried up to 3 attempts total with exponential waits
`delay * 2 ^ attempt`; a transport-level failure is retried up to 3
attempts total but with the fixed wait `delay * 2` each time; any other
HTTP error status is not retried (one attempt, one error, no wait). -/
theorem c5_retry_amended (web : Web) (url : String) (delay : ℚ) :
    (∀ c, c ∈ retryableCodes →
      (∀ a, web url a = .httpError c) →
      fetchURL web url delay =
        (.failed,
         [⟨url, "HTTP " ++ toString c, 1⟩, ⟨url, "HTTP " ++ toString c, 2⟩,
          ⟨url, "HTTP " ++ toString c, 3⟩],
         [delay * 2 ^ 1, delay * 2 ^ 2])) ∧
    (∀ msg, (∀ a, web url a = .transportError msg) →
      fetchURL web url delay =
        (.failed, [⟨url, msg, 1⟩, ⟨url, msg, 2⟩, ⟨url, msg, 3⟩],
         [delay * 2, delay * 2])) ∧
    (∀ c, c ∉ retryableCodes → web url 1 = .httpError c →
      fetchURL web url delay = (.failed, [⟨url, "HTTP " ++ toString c, 1⟩], [])) := by
  refine ⟨?_, ?_, ?_⟩
  · intro c hc h
    simp [fetchURL, fetchStep, max_retries, h 1, h 2, h 3, hc]
  · intro msg h
    simp [fetchURL, fetchStep, max_retries, h 1, h 2, h 3]
  · intro c hc h
    simp [fetchURL, fetchStep, max_retries, h, hc]

/-- Witness for C5: the amended theorem evaluated at `delay = 1` on a web
that always returns HTTP 503, one that always times out, and one that
returns HTTP 404 on the first attempt. -/
theorem c5_witness :
    fetchURL (fun _ _ => .httpError 503) "https://h/a" 1 =
      (.failed,
       [⟨"https://h/a", "HTTP 503", 1⟩, ⟨"https://h/a", "HTTP 503", 2⟩,
        ⟨"https://h/a", "HTTP 503", 3⟩], [2, 4]) ∧
    fetchURL (fun _ _ => .transportError "timed out") "https://h/a" 1 =
      (.failed,
       [⟨"https://h/a", "timed out", 1⟩, ⟨"https://h/a", "timed out", 2⟩,
        ⟨"https://h/a", "timed out", 3⟩], [2, 2]) ∧
    fetchURL (fun _ _ => .httpError 404) "https://h/a" 1 =
      (.failed, [⟨"https://h/a", "HTTP 404", 1⟩], []) := by
  refine ⟨?_, ?_, ?_⟩
  · rw [(c5_retry_amended (fun _ _ => .httpError 503) "https://h/a" 1).1
      503 (by decide) (fun a => rfl)]
    rw [(by decide : ("HTTP " ++ toString 503) = "HTTP 503")]
    norm_num
  · rw [(c5_retry_amended (fun _ _ => .transportError "timed out")
      "https://h/a" 1).2.1 "timed out" (fun a => rfl)]
    norm_num
  · rw [(c5_retry_amended (fun _ _ => .httpError 404) "https://h/a" 1).2.2
      404 (by decide) rfl]
    rw [(by decide : ("HTTP " ++ toString 404) = "HTTP 404")]

/-- Claim C7 (confirmed): a response whose `Content-Type` does not contain
`text/html` is success-but-skip: the fetch ends after the first attempt
with no retry, no error and no wait, and the loop iteration marks the URL
visited (so it counts against the budget) while leaving the queue, the
error log, the external links and the saved files unchanged — no output
file is written and no links are discovered. -/
theorem c7_nonhtml_skip (web : Web) (bp base_path url ct : String)
    (delay : ℚ) (st : CrawlState) (body : List HEvent)
    (hw : web url 1 = .response ct body)
    (hct : containsSub "text/html".data ct.data = false)
    (h1 : normalize_url url ∉ st.visited)
    (h2 : pyStartsWith url bp = true) :
    fetchURL web url delay = (.skipNonHTML, [], []) ∧
    crawlIter web bp base_path delay st url =
      { st with visited := st.visited ++ [normalize_url url],
                visited_original := st.visited_original ++ [url] } := by
  have hf : fetchURL web url delay = (.skipNonHTML, [], []) := by
    simp [fetchURL, fetchStep, max_retries, hw, hct]
  refine ⟨hf, ?_⟩
  rw [crawlIter_visit web bp base_path delay st url h1 h2]
  unfold visitResult
  rw [hf]
  simp

/-- Witness for C7: the theorem applied to a web answering
`application/pdf` for the start URL of a fresh state. -/
theorem c7_witness :
    fetchURL (fun _ _ => .response "application/pdf" []) "https://h/d/a" 1 =
      (.skipNonHTML, [], []) ∧
    crawlIter (fun _ _ => .response "application/pdf" []) "https://h/d/"
        "/d/" 1 (initState "https://h/d/a") "https://h/d/a" =
      { initState "https://h/d/a" with
        visited := [normalize_url "https://h/d/a"],
        visited_original := ["https://h/d/a"] } := by
  exact c7_nonhtml_skip (fun _ _ => .response "application/pdf" [])
    "https://h/d/" "/d/" "https://h/d/a" "application/pdf" 1
    (initState "https://h/d/a") [] rfl (by decide) (by decide) (by decide)

/-- Claim C9 (confirmed): supplying `officialDomains` as the empty list
behaves exactly as leaving it absent, because the audit branch tests
truthiness: the returned summary is identical (no `link_audit` field) and
no audit report is produced in either case. -/
theorem c9_empty_official_domains (web : Web) (start_url base_path : String)
    (max_pages : Nat) (delay : ℚ) (fuel : Nat) :
    crawl_docs web start_url base_path max_pages delay (some []) fuel =
      crawl_docs web start_url base_path max_pages delay none fuel ∧
    crawl_audit web start_url base_path max_pages delay (some []) fuel = none ∧
    crawl_audit web start_url base_path max_pages delay none fuel = none := by
  exact ⟨rfl, rfl, rfl⟩

/-- Claim C10 (confirmed): errors are recorded per attempt: a URL whose
every attempt fails with the retryable HTTP 503 contributes exactly three
`CrawlError` entries, carrying attempt numbers 1, 2 and 3, to the error
log of its loop iteration; and the summary's `errors` count always equals
the length of `error_details` (the total number of failed attempts). -/
theorem c10_errors_per_attempt (web : Web) (bp base_path url : String)
    (delay : ℚ) (st : CrawlState)
    (h : ∀ a, web url a = .httpError 503)
    (h1 : normalize_url url ∉ st.visited)
    (h2 : pyStartsWith url bp = true) :
    (crawlIter web bp base_path delay st url).errors =
      st.errors ++ [⟨url, "HTTP 503", 1⟩, ⟨url, "HTTP 503", 2⟩,
        ⟨url, "HTTP 503", 3⟩] ∧
    ∀ (web2 : Web) (s b : String) (mp : Nat) (d : ℚ)
      (od : Option (List String)) (fuel : Nat),
      (crawl_docs web2 s b mp d od fuel).errors =
        (crawl_docs web2 s b mp d od fuel).error_details.length := by
  constructor
  · have hf : fetchURL web url delay =
        (.failed, [⟨url, "HTTP 503", 1⟩, ⟨url, "HTTP 503", 2⟩,
          ⟨url, "HTTP 503", 3⟩], [delay * 2, delay * 2 ^ 2]) := by
      simp [fetchURL, fetchStep, max_retries, h 1, h 2, h 3,
        (by decide : (503 : Nat) ∈ retryableCodes),
        (by decide : ("HTTP " ++ toString 503) = "HTTP 503")]
    rw [crawlIter_visit web bp base_path delay st url h1 h2]
    unfold visitResult
    rw [hf]
  · intro web2 s b mp d od fuel
    rfl

/-- Witness for C10: the theorem applied to the always-503 web at a fresh
state: exactly three errors with attempt numbers 1, 2, 3. -/
theorem c10_witness :
    (crawlIter web503 "https://h/d/" "/d/" 1 (initState "https://h/d/a")
        "https://h/d/a").errors =
      [⟨"https://h/d/a", "HTTP 503", 1⟩, ⟨"https://h/d/a", "HTTP 503", 2⟩,
       ⟨"https://h/d/a", "HTTP 503", 3⟩] := by
  exact (c10_errors_per_attempt web503 "https://h/d/" "/d/" "https://h/d/a" 1
    (initState "https://h/d/a") (fun a => rfl) (by decide) (by decide)).1

/-! ## Claim C8: the extractor -/

theorem handle_starttag_base_url (p : DocParser) (t : String)
    (attrs : List (String × Option String)) :
    (handle_starttag p t attrs).base_url = p.base_url := by
  simp only [handle_starttag]
  split
  · split
    · split
      · rfl
      · rfl
    · rfl
  · rfl

theorem feedEvent_base_url (p : DocParser) (e : HEvent) :
    (feedEvent p e).base_url = p.base_url := by
  cases e with
  | startTag t attrs =>
    simp only [feedEvent]
    exact handle_starttag_base_url p t attrs
  | endTag t => rfl
  | dataText s =>
    simp only [feedEvent, handle_data]
    split
    · rfl
    · split
      · rfl
      · rfl

theorem feedEvent_links (p : DocParser) (e : HEvent) :
    (feedEvent p e).links = p.links ++ (linkFrom p.base_url e).toList := by
  cases e with
  | startTag t attrs =>
    simp only [feedEvent, handle_starttag, linkFrom]
    split
    · split
      · split
        · simp
        · simp
      · simp
    · simp
  | endTag t => simp [feedEvent, handle_endtag, linkFrom]
  | dataText s =>
    simp only [feedEvent, handle_data, linkFrom, Option.toList_none, List.append_nil]
    split
    · rfl
    · split
      · rfl
      · rfl

theorem foldl_feedEvent_links (evs : List HEvent) (p : DocParser) :
    (evs.foldl feedEvent p).links =
      p.links ++ evs.filterMap (linkFrom p.base_url) := by
  induction evs generalizing p with
  | nil => simp
  | cons e rest ih =>
    rw [List.foldl_cons, ih (feedEvent p e), feedEvent_base_url,
      feedEvent_links, List.filterMap_cons]
    rcases linkFrom p.base_url e with _ | l
    · simp
    · simp

/-- Claim C8 (counterexample): the claim that every anchor whose target
attribute is present and does not start with an inert scheme is recorded
is false for an empty `href`: the attribute is present (value `""`),
starts with none of `javascript:`, `mailto:`, `tel:`, `#`, `data:`, yet
the anchor is not recorded (Python's truthiness test drops it). -/
theorem c8_counterexample :
    dictGet [("href", some "")] "href" = some "" ∧
    SKIP_SCHEMES.all (fun s => pyStartsWith "" s = false) ∧
    (runParser "https://h/d/" [.startTag "a" [("href", some "")]]).links = [] := by
  decide

/-- Claim C8 (amended): each anchor whose target attribute is present with
a non-empty value not starting with `javascript:`, `mailto:`, `tel:`, `#`
or `data:` is resolved against the base URL, defragmented and recorded —
independently of the ignored-element depth and of the whole parser state
(the collected links are a pure function of the event stream); while a
text node is discarded whenever the ignored-element depth is non-zero and
captured (stripped) exactly when the depth is zero and the stripped text
is non-empty. -/
theorem c8_extractor_amended :
    (∀ base evs, (runParser base evs).links = evs.filterMap (linkFrom base)) ∧
    (∀ p s, p.inside_ignored ≠ 0 → handle_data p s = p) ∧
    (∀ p s, p.inside_ignored = 0 →
      handle_data p s =
        if pyStrip s ≠ "" then { p with text_parts := p.text_parts ++ [pyStrip s] }
        else p) := by
  refine ⟨?_, ?_, ?_⟩
  · intro base evs
    rw [runParser, foldl_feedEvent_links]
    rfl
  · intro p s h
    unfold handle_data
    rw [if_pos (Nat.pos_of_ne_zero h)]
  · intro p s h
    unfold handle_data
    rw [if_neg (by omega : ¬ p.inside_ignored > 0)]

/-- Witness for C8: the amended theorem applied concretely: a link inside
a `nav` region is still recorded; a data node at depth 1 is dropped; a
data node at depth 0 is stripped and captured. -/
theorem c8_witness :
    (runParser "https://h/d/"
        [.startTag "nav" [], .startTag "a" [("href", some "x")]]).links =
      [.startTag "nav" [], .startTag "a" [("href", some "x")]].filterMap
        (linkFrom "https://h/d/") ∧
    handle_data ⟨"https://h/d/", [], [], ["nav"], 1⟩ "hello" =
      ⟨"https://h/d/", [], [], ["nav"], 1⟩ ∧
    handle_data ⟨"https://h/d/", [], [], [], 0⟩ " hi " =
      ⟨"https://h/d/", [], ["hi"], [], 0⟩ := by
  refine ⟨c8_extractor_amended.1 "https://h/d/" _,
    c8_extractor_amended.2.1 _ "hello" (by decide), ?_⟩
  rw [c8_extractor_amended.2.2 ⟨"https://h/d/", [], [], [], 0⟩ " hi " rfl]
  decide

/-! ## Claim C6: order lemmas for the report sorting -/

theorem listLeChar_refl (x : List Char) : listLeChar x x = true := by
  induction x with
  | nil => rfl
  | cons a as ih => simp [listLeChar, ih]

theorem listLeChar_total (x y : List Char) :
    listLeChar x y = true ∨ listLeChar y x = true := by
  induction x generalizing y with
  | nil => exact Or.inl rfl
  | cons a as ih =>
    cases y with
    | nil => exact Or.inr rfl
    | cons b bs =>
      rcases lt_trichotomy a b with h | h | h
      · left
        simp [listLeChar, h]
      · subst h
        rcases ih bs with h2 | h2
        · left
          simp [listLeChar, h2]
        · right
          simp [listLeChar, h2]
      · right
        simp [listLeChar, h]

theorem listLeChar_trans {x y z : List Char} (h1 : listLeChar x y = true)
    (h2 : listLeChar y z = true) : listLeChar x z = true := by
  induction x generalizing y z with
  | nil => rfl
  | cons a as ih =>
    cases y with
    | nil => simp [listLeChar] at h1
    | cons b bs =>
      cases z with
      | nil => simp [listLeChar] at h2
      | cons c cs =>
        simp only [listLeChar] at h1 h2 ⊢
        rcases lt_trichotomy a b with hab | hab | hab
        · rcases lt_trichotomy b c with hbc | hbc | hbc
          · simp [lt_trans hab hbc]
          · subst hbc
            simp [hab]
          · rw [if_pos hab] at h1
            rw [if_neg (lt_asymm hbc), if_pos hbc] at h2
            simp at h2
        · subst hab
          rcases lt_trichotomy a c with hac | hac | hac
          · simp [hac]
          · subst hac
            rw [if_neg (lt_irrefl a), if_neg (lt_irrefl a)] at h1 h2
            simp only [if_neg (lt_irrefl a)]
            exact ih h1 h2
          · rw [if_neg (lt_asymm hac), if_pos hac] at h2
            simp at h2
        · rw [if_neg (lt_asymm hab), if_pos hab] at h1
          simp at h1

theorem listLeChar_antisymm {x y : List Char} (h1 : listLeChar x y = true)
    (h2 : listLeChar y x = true) : x = y := by
  induction x generalizing y with
  | nil =>
    cases y with
    | nil => rfl
    | cons b bs => simp [listLeChar] at h2
  | cons a as ih =>
    cases y with
    | nil => simp [listLeChar] at h1
    | cons b bs =>
      simp only [listLeChar] at h1 h2
      rcases lt_trichotomy a b with hab | hab | hab
      · rw [if_neg (lt_asymm hab), if_pos hab] at h2
        simp at h2
      · subst hab
        rw [if_neg (lt_irrefl a), if_neg (lt_irrefl a)] at h1 h2
        rw [ih h1 h2]
      · rw [if_neg (lt_asymm hab), if_pos hab] at h1
        simp at h1

theorem listLtChar_irrefl (x : List Char) : listLtChar x x = false := by
  induction x with
  | nil => rfl
  | cons a as ih => simp [listLtChar, ih]

theorem listLtChar_trans {x y z : List Char} (h1 : listLtChar x y = true)
    (h2 : listLtChar y z = true) : listLtChar x z = true := by
  induction x generalizing y z with
  | nil =>
    cases z with
    | nil =>
      cases y with
      | nil => exact h1
      | cons b bs => simp [listLtChar] at h2
    | cons c cs => rfl
  | cons a as ih =>
    cases y with
    | nil => simp [listLtChar] at h1
    | cons b bs =>
      cases z with
      | nil => simp [listLtChar] at h2
      | cons c cs =>
        simp only [listLtChar] at h1 h2 ⊢
        rcases lt_trichotomy a b with hab | hab | hab
        · rcases lt_trichotomy b c with hbc | hbc | hbc
          · simp [lt_trans hab hbc]
          · subst hbc
            simp [hab]
          · rw [if_neg (lt_asymm hbc), if_pos hbc] at h2
            simp at h2
        · subst hab
          rcases lt_trichotomy a c with hac | hac | hac
          · simp [hac]
          · subst hac
            rw [if_neg (lt_irrefl a), if_neg (lt_irrefl a)] at h1 h2
            simp only [if_neg (lt_irrefl a)]
            exact ih h1 h2
          · rw [if_neg (lt_asymm hac), if_pos hac] at h2
            simp at h2
        · rw [if_neg (lt_asymm hab), if_pos hab] at h1
          simp at h1

theorem listLtChar_asymm {x y : List Char} (h1 : listLtChar x y = true)
    (h2 : listLtChar y x = true) : False := by
  have := listLtChar_trans h1 h2
  rw [listLtChar_irrefl] at this
  exact Bool.false_ne_true this

theorem listLtChar_le {x y : List Char} (h : listLtChar x y = true) :
    listLeChar x y = true := by
  induction x generalizing y with
  | nil => rfl
  | cons a as ih =>
    cases y with
    | nil => simp [listLtChar] at h
    | cons b bs =>
      simp only [listLtChar] at h
      simp only [listLeChar]
      rcases lt_trichotomy a b with hab | hab | hab
      · simp [hab]
      · subst hab
        rw [if_neg (lt_irrefl a), if_neg (lt_irrefl a)] at h ⊢
        exact ih h
      · rw [if_neg (lt_asymm hab), if_pos hab] at h
        simp at h

theorem strLeB_refl (x : String) : strLeB x x = true :=
  listLeChar_refl x.data

theorem strLeB_total (x y : String) : strLeB x y = true ∨ strLeB y x = true :=
  listLeChar_total x.data y.data

theorem strLeB_trans {x y z : String} (h1 : strLeB x y = true)
    (h2 : strLeB y z = true) : strLeB x z = true :=
  listLeChar_trans h1 h2

theorem pairLeB_refl (x : String × String) : pairLeB x x = true := by
  simp [pairLeB, strLeB_refl]

theorem strEq_of_data {a b : String} (h : a.data = b.data) : a = b := by
  cases a
  cases b
  exact congrArg String.mk h

theorem listLeChar_lt_or_eq {x y : List Char} (h : listLeChar x y = true) :
    listLtChar x y = true ∨ x = y := by
  induction x generalizing y with
  | nil =>
    cases y with
    | nil => exact Or.inr rfl
    | cons b bs => exact Or.inl rfl
  | cons a as ih =>
    cases y with
    | nil => simp [listLeChar] at h
    | cons b bs =>
      simp only [listLeChar] at h
      simp only [listLtChar]
      rcases lt_trichotomy a b with hab | hab | hab
      · left
        simp [hab]
      · subst hab
        rw [if_neg (lt_irrefl a), if_neg (lt_irrefl a)] at h ⊢
        rcases ih h with h2 | h2
        · exact Or.inl h2
        · exact Or.inr (by rw [h2])
      · rw [if_neg (lt_asymm hab), if_pos hab] at h
        simp at h

theorem listLtChar_ne {x y : List Char} (h : listLtChar x y = true) : x ≠ y := by
  intro he
  subst he
  rw [listLtChar_irrefl] at h
  exact Bool.false_ne_true h

theorem pairLeB_total (x y : String × String) :
    pairLeB x y = true ∨ pairLeB y x = true := by
  unfold pairLeB
  by_cases h : x.1 = y.1
  · rw [if_pos h, if_pos h.symm]
    exact strLeB_total x.2 y.2
  · rw [if_neg h, if_neg (fun hc => h hc.symm)]
    unfold pyStrLt
    rcases listLeChar_total x.1.data y.1.data with h2 | h2
    · rcases listLeChar_lt_or_eq h2 with h3 | h3
      · exact Or.inl h3
      · exact absurd (strEq_of_data h3) h
    · rcases listLeChar_lt_or_eq h2 with h3 | h3
      · exact Or.inr h3
      · exact absurd (strEq_of_data h3).symm h

theorem pairLeB_trans {x y z : String × String} (h1 : pairLeB x y = true)
    (h2 : pairLeB y z = true) : pairLeB x z = true := by
  unfold pairLeB at h1 h2 ⊢
  by_cases hxy : x.1 = y.1
  · rw [if_pos hxy] at h1
    by_cases hyz : y.1 = z.1
    · rw [if_pos hyz] at h2
      rw [if_pos (hxy.trans hyz)]
      exact strLeB_trans h1 h2
    · rw [if_neg hyz] at h2
      rw [if_neg (fun hc => hyz (hxy.symm.trans hc)), hxy]
      exact h2
  · rw [if_neg hxy] at h1
    by_cases hyz : y.1 = z.1
    · rw [if_neg (fun hc => hxy (hc.trans hyz.symm)), ← hyz]
      exact h1
    · rw [if_neg hyz] at h2
      have h3 : listLtChar x.1.data z.1.data = true := listLtChar_trans h1 h2
      rw [if_neg (fun hc => listLtChar_ne h3 (congrArg String.data hc))]
      exact h3

/-! ## Claim C6: sorting and de-duplication lemmas -/

theorem insertSorted_perm {α : Type} (le : α → α → Bool) (x : α) (l : List α) :
    (insertSorted le x l).Perm (x :: l) := by
  induction l with
  | nil => exact List.Perm.refl _
  | cons y ys ih =>
    unfold insertSorted
    split
    · exact List.Perm.refl _
    · exact (List.Perm.cons y ih).trans (List.Perm.swap x y ys)

theorem sortByB_perm {α : Type} (le : α → α → Bool) (l : List α) :
    (sortByB le l).Perm l := by
  induction l with
  | nil => exact List.Perm.refl _
  | cons x xs ih =>
    unfold sortByB
    rw [List.foldr_cons]
    exact (insertSorted_perm le x _).trans (List.Perm.cons x ih)

theorem mem_insertSorted {α : Type} {le : α → α → Bool} {x z : α} {l : List α} :
    z ∈ insertSorted le x l ↔ z = x ∨ z ∈ l := by
  constructor
  · intro h
    have := (insertSorted_perm le x l).mem_iff.mp h
    simpa using this
  · intro h
    apply (insertSorted_perm le x l).mem_iff.mpr
    simpa using h

theorem insertSorted_sorted {α : Type} {le : α → α → Bool}
    (htrans : ∀ a b c : α, le a b = true → le b c = true → le a c = true)
    (htot : ∀ a b : α, le a b = true ∨ le b a = true)
    (x : α) (l : List α) (h : l.Pairwise (fun a b => le a b = true)) :
    (insertSorted le x l).Pairwise (fun a b => le a b = true) := by
  induction l with
  | nil => simp [insertSorted]
  | cons y ys ih =>
    unfold insertSorted
    split
    next hxy =>
      refine List.Pairwise.cons ?_ h
      intro z hz
      rcases List.mem_cons.mp hz with hz | hz
      · subst hz
        exact hxy
      · exact htrans _ _ _ hxy (List.rel_of_pairwise_cons h hz)
    next hxy =>
      have hyx : le y x = true := by
        rcases htot x y with h2 | h2
        · exact absurd h2 hxy
        · exact h2
      refine List.Pairwise.cons ?_ (ih (List.Pairwise.sublist (List.sublist_cons_self y ys) h))
      intro z hz
      rcases mem_insertSorted.mp hz with hz | hz
      · subst hz
        exact hyx
      · exact List.rel_of_pairwise_cons h hz

theorem sortByB_sorted {α : Type} {le : α → α → Bool}
    (htrans : ∀ a b c : α, le a b = true → le b c = true → le a c = true)
    (htot : ∀ a b : α, le a b = true ∨ le b a = true)
    (l : List α) :
    (sortByB le l).Pairwise (fun a b => le a b = true) := by
  induction l with
  | nil => exact List.Pairwise.nil
  | cons x xs ih =>
    unfold sortByB
    rw [List.foldr_cons]
    exact insertSorted_sorted htrans htot x _ ih

theorem dedupSorted_sublist (l : List (String × String)) (seen : List String) :
    (dedupSorted l seen).Sublist l := by
  induction l generalizing seen with
  | nil => exact List.Sublist.refl _
  | cons p rest ih =>
    obtain ⟨h, s⟩ := p
    unfold dedupSorted
    split
    · exact List.Sublist.cons _ (ih seen)
    · exact List.Sublist.cons₂ _ (ih (h :: seen))

theorem dedupSorted_not_seen {l : List (String × String)} {seen : List String} :
    ∀ p ∈ dedupSorted l seen, p.1 ∉ seen := by
  induction l generalizing seen with
  | nil => intro p hp; simp [dedupSorted] at hp
  | cons q rest ih =>
    obtain ⟨h, s⟩ := q
    intro p hp
    unfold dedupSorted at hp
    split at hp
    · exact ih p hp
    · rcases List.mem_cons.mp hp with hp2 | hp2
      · subst hp2
        assumption
      · intro hc
        exact ih p hp2 (List.mem_cons_of_mem _ hc)

theorem dedupSorted_fst_nodup (l : List (String × String)) (seen : List String) :
    ((dedupSorted l seen).map Prod.fst).Nodup := by
  induction l generalizing seen with
  | nil => simp [dedupSorted]
  | cons q rest ih =>
    obtain ⟨h, s⟩ := q
    unfold dedupSorted
    split
    · exact ih seen
    · rw [List.map_cons]
      refine List.Nodup.cons ?_ (ih (h :: seen))
      intro hc
      rcases List.mem_map.mp hc with ⟨p, hp, hpe⟩
      exact dedupSorted_not_seen p hp (by rw [hpe]; exact List.mem_cons_self h _)

theorem dedupSorted_coverage {l : List (String × String)} {seen : List String} :
    ∀ p ∈ l, p.1 ∈ seen ∨ ∃ q ∈ dedupSorted l seen, q.1 = p.1 := by
  induction l generalizing seen with
  | nil => intro p hp; simp at hp
  | cons q rest ih =>
    obtain ⟨h, s⟩ := q
    intro p hp
    unfold dedupSorted
    by_cases hseen : h ∈ seen
    · rw [if_pos hseen]
      rcases List.mem_cons.mp hp with hp2 | hp2
      · subst hp2
        exact Or.inl hseen
      · exact ih p hp2
    · rw [if_neg hseen]
      rcases List.mem_cons.mp hp with hp2 | hp2
      · subst hp2
        exact Or.inr ⟨(h, s), List.mem_cons_self _ _, rfl⟩
      · rcases @ih (h :: seen) p hp2 with hc | ⟨q2, hq2, hq2e⟩
        · rcases List.mem_cons.mp hc with hc2 | hc2
          · exact Or.inr ⟨(h, s), List.mem_cons_self _ _, hc2.symm⟩
          · exact Or.inl hc2
        · exact Or.inr ⟨q2, List.mem_cons_of_mem _ hq2, hq2e⟩

theorem dedupSorted_min {l : List (String × String)} {seen : List String}
    (hs : l.Pairwise (fun a b => pairLeB a b = true)) :
    ∀ q ∈ dedupSorted l seen, ∀ p ∈ l, p.1 = q.1 → pairLeB q p = true := by
  induction l generalizing seen with
  | nil => intro q hq; simp [dedupSorted] at hq
  | cons e rest ih =>
    obtain ⟨h, s⟩ := e
    intro q hq p hp hpe
    unfold dedupSorted at hq
    split at hq
    next hseen =>
      rcases List.mem_cons.mp hp with hp2 | hp2
      · subst hp2
        exfalso
        apply dedupSorted_not_seen q hq
        rw [hpe.symm]
        exact hseen
      · exact ih (List.Pairwise.sublist (List.sublist_cons_self _ _) hs) q hq p hp2 hpe
    next hseen =>
      rcases List.mem_cons.mp hq with hq2 | hq2
      · subst hq2
        rcases List.mem_cons.mp hp with hp2 | hp2
        · subst hp2
          exact pairLeB_refl _
        · exact List.rel_of_pairwise_cons hs hp2
      · rcases List.mem_cons.mp hp with hp2 | hp2
        · subst hp2
          exfalso
          have := dedupSorted_not_seen q hq2
          rw [← hpe] at this
          exact this (List.mem_cons_self _ _)
        · exact ih (List.Pairwise.sublist (List.sublist_cons_self _ _) hs) q hq2 p hp2 hpe

/-- Claim C6 (counterexample): the claim that for each distinct third-party
href every distinct source page is listed as provenance is false: two
pages `p1` and `p2` both link to the external href `h` on domain `d`, but
the rendered third-party section lists `h` once with only `p1` (the first
source in sorted pair order); `p2` appears nowhere. -/
theorem c6_counterexample :
    ("h", "p2") ∈ lookupList
      (classify [("p1", [("h", "d")]), ("p2", [("h", "d")])]
        (officialSetOf [])).2 "d" ∧
    (linkAudit [("p1", [("h", "d")]), ("p2", [("h", "d")])] [] []).thirdParty =
      [("d", [("h", "p1")])] := by
  decide

/-- Claim C6 (amended): in the third-party section of the audit report,
domains appear in sorted order; within each domain the entries have
strictly sorted (hence de-duplicated) hrefs; every rendered `(href,
source)` pair is one of the recorded pairs of that domain; every recorded
href of the domain appears among the rendered hrefs; and the single
source shown for an href is the least source (in Python's sort order)
among all recorded pairs with that href — not every distinct source. -/
theorem c6_third_party_amended (allExt : List (String × List (String × String)))
    (domains : List String) (errors : List CrawlError) :
    ((linkAudit allExt domains errors).thirdParty.map Prod.fst).Pairwise
      (fun a b => strLeB a b = true) ∧
    ∀ de ∈ (linkAudit allExt domains errors).thirdParty,
      de.2.Pairwise (fun a b => pyStrLt a.1 b.1 = true) ∧
      (∀ p ∈ de.2,
        p ∈ lookupList (classify allExt (officialSetOf domains)).2 de.1) ∧
      (∀ p ∈ lookupList (classify allExt (officialSetOf domains)).2 de.1,
        ∃ q ∈ de.2, q.1 = p.1) ∧
      (∀ q ∈ de.2,
        ∀ p ∈ lookupList (classify allExt (officialSetOf domains)).2 de.1,
        p.1 = q.1 → strLeB q.2 p.2 = true) := by
  have hthird : (linkAudit allExt domains errors).thirdParty =
      renderSection (classify allExt (officialSetOf domains)).2 := rfl
  rw [hthird]
  constructor
  · have hmapfst : (renderSection (classify allExt (officialSetOf domains)).2).map
        Prod.fst =
        sortByB strLeB ((classify allExt (officialSetOf domains)).2.map Prod.fst) := by
      unfold renderSection
      rw [List.map_map]
      exact List.map_id _
    rw [hmapfst]
    exact @sortByB_sorted String strLeB (fun a b c h1 h2 => strLeB_trans h1 h2)
      strLeB_total _
  · intro de hde
    unfold renderSection at hde
    rcases List.mem_map.mp hde with ⟨d, hd, hde2⟩
    subst hde2
    have hsorted : (sortByB pairLeB
        (lookupList (classify allExt (officialSetOf domains)).2 d)).Pairwise
        (fun a b => pairLeB a b = true) :=
      @sortByB_sorted (String × String) pairLeB
        (fun a b c h1 h2 => pairLeB_trans h1 h2) pairLeB_total _
    have hperm := sortByB_perm pairLeB
      (lookupList (classify allExt (officialSetOf domains)).2 d)
    have hsub := dedupSorted_sublist
      (sortByB pairLeB (lookupList (classify allExt (officialSetOf domains)).2 d)) []
    refine ⟨?_, ?_, ?_, ?_⟩
    · have hP := List.Pairwise.sublist hsub hsorted
      have hN := dedupSorted_fst_nodup
        (sortByB pairLeB (lookupList (classify allExt (officialSetOf domains)).2 d)) []
      have hne : List.Pairwise (fun a b : String × String => a.1 ≠ b.1)
          (dedupSorted (sortByB pairLeB
            (lookupList (classify allExt (officialSetOf domains)).2 d)) []) :=
        List.pairwise_map.mp hN
      refine List.Pairwise.imp ?_ (hP.and hne)
      intro a b hab
      obtain ⟨hle, hne2⟩ := hab
      unfold pairLeB at hle
      rwa [if_neg hne2] at hle
    · intro p hp
      exact hperm.mem_iff.mp (hsub.subset hp)
    · intro p hp
      rcases dedupSorted_coverage p (hperm.mem_iff.mpr hp) with hc | hc
      · exact absurd hc (List.not_mem_nil _)
      · exact hc
    · intro q hq p hp hpe
      have := dedupSorted_min hsorted q hq p (hperm.mem_iff.mpr hp) hpe
      unfold pairLeB at this
      rwa [if_pos hpe.symm] at this

/-- Witness for C6: the amended theorem applied to the two-source input:
the rendered pair `("h", "p1")` is a recorded pair of domain `d`, and the
shown source `p1` is sort-below the unlisted source `p2`. -/
theorem c6_witness :
    ("h", "p1") ∈ lookupList
      (classify [("p1", [("h", "d")]), ("p2", [("h", "d")])]
        (officialSetOf [])).2 "d" ∧
    strLeB "p1" "p2" = true := by
  have h := c6_third_party_amended
    [("p1", [("h", "d")]), ("p2", [("h", "d")])] [] []
  have hmem : ("d", [("h", "p1")]) ∈
      (linkAudit [("p1", [("h", "d")]), ("p2", [("h", "d")])] [] []).thirdParty := by
    decide
  refine ⟨(h.2 _ hmem).2.1 ("h", "p1") (by decide), ?_⟩
  exact (h.2 _ hmem).2.2.2 ("h", "p1") (by decide) ("h", "p2") (by decide) rfl

/-! ## Claim C4: character-level lemmas -/

theorem toLower_def (c : Char) :
    c.toLower =
      if c.toNat ≥ 65 ∧ c.toNat ≤ 90 then Char.ofNat (c.toNat + 32) else c := rfl

theorem toNat_ofNat_small {n : Nat} (h : n < 0xD800) : (Char.ofNat n).toNat = n := by
  unfold Char.ofNat
  rw [dif_pos (Or.inl h)]
  rfl

theorem toNat_toLower (c : Char) :
    c.toLower.toNat =
      if c.toNat ≥ 65 ∧ c.toNat ≤ 90 then c.toNat + 32 else c.toNat := by
  rw [toLower_def]
  split
  next h => exact toNat_ofNat_small (by omega)
  next h => rfl

theorem toLower_toLower (c : Char) : c.toLower.toLower = c.toLower := by
  rw [toLower_def c.toLower, toNat_toLower]
  by_cases h : c.toNat ≥ 65 ∧ c.toNat ≤ 90
  · rw [if_pos h, if_neg (by omega)]
  · rw [if_neg h, if_neg h]

theorem map_toLower_idem (l : List Char) :
    (l.map Char.toLower).map Char.toLower = l.map Char.toLower := by
  rw [List.map_map]
  exact List.map_congr_left (fun c _ => toLower_toLower c)

theorem char_eq_of_toNat_eq {c d : Char} (h : c.toNat = d.toNat) : c = d := by
  have := Char.ofNat_toNat c
  rw [h, Char.ofNat_toNat] at this
  exact this.symm

theorem toLower_eq_of_low {c d : Char} (hd : d.toNat < 97)
    (h : c.toLower = d) : c = d := by
  by_cases hc : c.toNat ≥ 65 ∧ c.toNat ≤ 90
  · exfalso
    have := congrArg Char.toNat h
    rw [toNat_toLower, if_pos hc] at this
    omega
  · rwa [toLower_def, if_neg hc] at h

theorem not_mem_map_toLower {d : Char} {l : List Char} (hd : d.toNat < 97)
    (h : d ∉ l) : d ∉ l.map Char.toLower := by
  intro hc
  rcases List.mem_map.mp hc with ⟨c, hcl, hce⟩
  rw [toLower_eq_of_low hd hce] at hcl
  exact h hcl

theorem isUpper_iff (c : Char) : c.isUpper = true ↔ 65 ≤ c.toNat ∧ c.toNat ≤ 90 := by
  unfold Char.isUpper
  rw [Bool.and_eq_true, decide_eq_true_iff, decide_eq_true_iff]
  exact Iff.rfl

theorem isLower_iff (c : Char) : c.isLower = true ↔ 97 ≤ c.toNat ∧ c.toNat ≤ 122 := by
  unfold Char.isLower
  rw [Bool.and_eq_true, decide_eq_true_iff, decide_eq_true_iff]
  exact Iff.rfl

theorem isAlpha_iff (c : Char) :
    c.isAlpha = true ↔ (65 ≤ c.toNat ∧ c.toNat ≤ 90) ∨ (97 ≤ c.toNat ∧ c.toNat ≤ 122) := by
  unfold Char.isAlpha
  rw [Bool.or_eq_true, isUpper_iff, isLower_iff]

theorem isAlpha_toLower {c : Char} (h : c.isAlpha = true) :
    c.toLower.isAlpha = true := by
  rw [isAlpha_iff] at h ⊢
  rw [toNat_toLower]
  split
  · omega
  · omega

theorem isAlpha_toNat_big {c : Char} (h : c.isAlpha = true) : 65 ≤ c.toNat := by
  rw [isAlpha_iff] at h
  omega

theorem schemeChar_toLower {c : Char} (h : schemeChar c = true) :
    schemeChar c.toLower = true := by
  by_cases hu : c.toNat ≥ 65 ∧ c.toNat ≤ 90
  · have halpha : c.toLower.isAlpha = true := by
      rw [isAlpha_iff, toNat_toLower, if_pos hu]
      omega
    unfold schemeChar
    rw [halpha]
    rfl
  · rwa [toLower_def, if_neg hu]

theorem not_mem_of_all_schemeChar {x : Char} {l : List Char}
    (h : l.all schemeChar = true) (hx : schemeChar x = false) : x ∉ l := by
  intro hc
  rw [List.all_eq_true] at h
  rw [h x hc] at hx
  simp at hx

/-! ## Claim C4: splitting lemmas -/

theorem splitFirst_of_not_mem {c : Char} {l : List Char} (h : c ∉ l) :
    splitFirst c l = none := by
  induction l with
  | nil => rfl
  | cons x xs ih =>
    unfold splitFirst
    rw [if_neg (fun hc => h (by rw [← hc]; exact List.mem_cons_self x xs)),
      ih (fun hc => h (List.mem_cons_of_mem x hc))]
    rfl

theorem splitFirst_append_not_mem {c : Char} {a b : List Char} (h : c ∉ a) :
    splitFirst c (a ++ c :: b) = some (a, b) := by
  induction a with
  | nil => simp [splitFirst]
  | cons x xs ih =>
    rw [List.cons_append]
    unfold splitFirst
    rw [if_neg (fun hc => h (by rw [← hc]; exact List.mem_cons_self x xs)),
      ih (fun hc => h (List.mem_cons_of_mem x hc))]
    rfl

theorem splitFirst_some_spec {c : Char} {l a b : List Char}
    (h : splitFirst c l = some (a, b)) : l = a ++ c :: b ∧ c ∉ a := by
  induction l generalizing a b with
  | nil => exact Option.noConfusion h
  | cons x xs ih =>
    unfold splitFirst at h
    by_cases hx : x = c
    · rw [if_pos hx] at h
      simp only [Option.some.injEq, Prod.mk.injEq] at h
      obtain ⟨h1, h2⟩ := h
      subst h1
      subst h2
      subst hx
      exact ⟨rfl, List.not_mem_nil x⟩
    · rw [if_neg hx] at h
      rcases h2 : splitFirst c xs with _ | ⟨a2, b2⟩
      · rw [h2] at h
        exact Option.noConfusion h
      · rw [h2] at h
        have h7 : (x :: a2, b2) = (a, b) := Option.some.inj h
        injection h7 with h3 h4
        obtain ⟨h5, h6⟩ := ih h2
        subst h4
        rw [← h3]
        constructor
        · rw [List.cons_append, ← h5]
        · intro hc
          rcases List.mem_cons.mp hc with hc2 | hc2
          · exact hx hc2.symm
          · exact h6 hc2

theorem takeUntilDelims_no_delim {l : List Char}
    (h : ∀ x ∈ l, ¬(x = '/' ∨ x = '?' ∨ x = '#')) :
    takeUntilDelims l = (l, []) := by
  induction l with
  | nil => rfl
  | cons x xs ih =>
    unfold takeUntilDelims
    rw [if_neg (h x (List.mem_cons_self x xs)),
      ih (fun y hy => h y (List.mem_cons_of_mem x hy))]

theorem takeUntilDelims_append {a b : List Char} {d : Char}
    (ha : ∀ x ∈ a, ¬(x = '/' ∨ x = '?' ∨ x = '#'))
    (hd : d = '/' ∨ d = '?' ∨ d = '#') :
    takeUntilDelims (a ++ d :: b) = (a, d :: b) := by
  induction a with
  | nil =>
    rw [List.nil_append]
    unfold takeUntilDelims
    rw [if_pos hd]
  | cons x xs ih =>
    rw [List.cons_append]
    unfold takeUntilDelims
    rw [if_neg (ha x (List.mem_cons_self x xs)),
      ih (fun y hy => ha y (List.mem_cons_of_mem x hy))]

theorem takeUntilDelims_spec (l : List Char) :
    l = (takeUntilDelims l).1 ++ (takeUntilDelims l).2 ∧
    (∀ x ∈ (takeUntilDelims l).1, ¬(x = '/' ∨ x = '?' ∨ x = '#')) ∧
    ((takeUntilDelims l).2 = [] ∨
      ∃ d t, (takeUntilDelims l).2 = d :: t ∧ (d = '/' ∨ d = '?' ∨ d = '#')) := by
  induction l with
  | nil => exact ⟨rfl, fun x hx => absurd hx (List.not_mem_nil x), Or.inl rfl⟩
  | cons x xs ih =>
    unfold takeUntilDelims
    by_cases hx : x = '/' ∨ x = '?' ∨ x = '#'
    · rw [if_pos hx]
      exact ⟨rfl, fun y hy => absurd hy (List.not_mem_nil y),
        Or.inr ⟨x, xs, rfl, hx⟩⟩
    · rw [if_neg hx]
      obtain ⟨h1, h2, h3⟩ := ih
      refine ⟨?_, ?_, h3⟩
      · rw [List.cons_append, ← h1]
      · intro y hy
        rcases List.mem_cons.mp hy with hy2 | hy2
        · rw [hy2]; exact hx
        · exact h2 y hy2

theorem rstripSlashes_exists (l : List Char) :
    ∃ k, l = rstripSlashes l ++ List.replicate k '/' := by
  unfold rstripSlashes
  obtain ⟨k, hk⟩ : ∃ k, l.reverse.takeWhile (fun c => c == '/') =
      List.replicate k '/' := by
    refine ⟨(l.reverse.takeWhile (fun c => c == '/')).length, ?_⟩
    apply List.eq_replicate_of_mem
    intro c hc
    have := List.mem_takeWhile_imp hc
    simpa using this
  refine ⟨k, ?_⟩
  conv_lhs => rw [← List.reverse_reverse l,
    ← List.takeWhile_append_dropWhile (fun c => c == '/') l.reverse]
  rw [List.reverse_append, hk]
  congr 1
  rw [List.reverse_replicate]

theorem dropWhile_idem (p : Char → Bool) (l : List Char) :
    (l.dropWhile p).dropWhile p = l.dropWhile p := by
  induction l with
  | nil => rfl
  | cons x xs ih =>
    by_cases h : p x
    · simp [List.dropWhile_cons, h, ih]
    · simp [List.dropWhile_cons, h]

theorem rstripSlashes_idem (l : List Char) :
    rstripSlashes (rstripSlashes l) = rstripSlashes l := by
  unfold rstripSlashes
  rw [List.reverse_reverse, dropWhile_idem]

theorem rstripSlashes_subset {x : Char} {l : List Char}
    (h : x ∈ rstripSlashes l) : x ∈ l := by
  obtain ⟨k, hk⟩ := rstripSlashes_exists l
  rw [hk]
  exact List.mem_append_left _ h

theorem rstripSlashes_head {x : Char} {xs l : List Char}
    (h : rstripSlashes l = x :: xs) : ∃ t, l = x :: t := by
  obtain ⟨k, hk⟩ := rstripSlashes_exists l
  rw [h] at hk
  exact ⟨xs ++ List.replicate k '/', hk⟩

/-! ## Claim C4: cleanup lemmas -/

theorem cleanURL_mem_clean {c : Char} {l : List Char} (h : c ∈ cleanURL l) :
    unsafeURLByte c = false := by
  unfold cleanURL removeUnsafe at h
  have := List.of_mem_filter h
  simpa using this

theorem dropWhile_head_prop {p : Char → Bool} {l ys : List Char} {y : Char}
    (h : l.dropWhile p = y :: ys) : p y = false := by
  induction l with
  | nil => exact List.noConfusion h
  | cons x xs ih =>
    rw [List.dropWhile_cons] at h
    split at h
    · exact ih h
    · next hpx =>
      injection h with h1 h2
      subst h1
      simpa using hpx

theorem toNat_big_clean {y : Char} (h : 0x20 < y.toNat) :
    unsafeURLByte y = false := by
  unfold unsafeURLByte
  have ht : (y == '\t') = false := by
    rw [beq_eq_false_iff_ne]
    intro hc
    rw [hc] at h
    exact absurd h (by decide)
  have hr : (y == '\r') = false := by
    rw [beq_eq_false_iff_ne]
    intro hc
    rw [hc] at h
    exact absurd h (by decide)
  have hn : (y == '\n') = false := by
    rw [beq_eq_false_iff_ne]
    intro hc
    rw [hc] at h
    exact absurd h (by decide)
  rw [ht, hr, hn]
  rfl

theorem cleanURL_head {x : Char} {xs l : List Char} (h : cleanURL l = x :: xs) :
    0x20 < x.toNat := by
  unfold cleanURL removeUnsafe lstripC0 at h
  rcases hd : l.dropWhile c0OrSpace with _ | ⟨y, ys⟩
  · rw [hd] at h
    exact List.noConfusion h
  · have hy : c0OrSpace y = false := dropWhile_head_prop hd
    have hy2 : 0x20 < y.toNat := by
      unfold c0OrSpace at hy
      simpa using hy
    rw [hd, List.filter_cons, if_pos (by rw [toNat_big_clean hy2]; rfl)] at h
    injection h with h1 h2
    subst h1
    exact hy2

theorem cleanURL_eq_self {l : List Char}
    (h1 : ∀ c ∈ l, unsafeURLByte c = false)
    (h2 : ∀ x xs, l = x :: xs → c0OrSpace x = false) :
    cleanURL l = l := by
  unfold cleanURL
  have hl : lstripC0 l = l := by
    unfold lstripC0
    cases l with
    | nil => rfl
    | cons x xs =>
      rw [List.dropWhile_cons, h2 x xs rfl]
      simp
  rw [hl]
  unfold removeUnsafe
  apply List.filter_eq_self.mpr
  intro a ha
  rw [h1 a ha]
  rfl

/-! ## Claim C4: scheme and netloc stage lemmas -/

theorem splitFirst_none_imp {c : Char} {l : List Char}
    (h : splitFirst c l = none) : c ∉ l := by
  induction l with
  | nil => exact List.not_mem_nil c
  | cons x xs ih =>
    unfold splitFirst at h
    by_cases hx : x = c
    · rw [if_pos hx] at h
      exact Option.noConfusion h
    · rw [if_neg hx] at h
      rcases h2 : splitFirst c xs with _ | p
      · intro hc
        rcases List.mem_cons.mp hc with hc2 | hc2
        · exact hx hc2.symm
        · exact ih h2 hc2
      · rw [h2] at h
        exact Option.noConfusion h

theorem splitSchemeL_head_not_alpha {x : Char} {xs : List Char}
    (h : x.isAlpha = false) : splitSchemeL (x :: xs) = none := by
  unfold splitSchemeL
  rcases hs : splitFirst ':' (x :: xs) with _ | ⟨pre, post⟩
  · rfl
  · rcases pre with _ | ⟨c, cs⟩
    · rfl
    · obtain ⟨h1, h2⟩ := splitFirst_some_spec hs
      have hx : c = x := by
        rw [List.cons_append] at h1
        exact (List.cons.injEq _ _ _ _ ▸ h1).1.symm
      dsimp only
      rw [if_neg]
      intro hc
      rw [Bool.and_eq_true] at hc
      rw [hx, h] at hc
      exact Bool.noConfusion hc.1

theorem splitSchemeL_valid {c : Char} {cs rest : List Char}
    (hca : c.isAlpha = true) (hall : (c :: cs).all schemeChar = true) :
    splitSchemeL ((c :: cs) ++ ':' :: rest) =
      some ((c :: cs).map Char.toLower, rest) := by
  have hnc : ':' ∉ (c :: cs) :=
    not_mem_of_all_schemeChar hall (by decide)
  unfold splitSchemeL
  rw [splitFirst_append_not_mem hnc]
  dsimp only
  rw [if_pos (by rw [hca, hall]; rfl)]

theorem splitSchemeL_some_spec {l sch rest : List Char}
    (h : splitSchemeL l = some (sch, rest)) :
    ∃ c cs, l = (c :: cs) ++ ':' :: rest ∧ ':' ∉ (c :: cs) ∧
      c.isAlpha = true ∧ (c :: cs).all schemeChar = true ∧
      sch = (c :: cs).map Char.toLower := by
  unfold splitSchemeL at h
  rcases hs : splitFirst ':' l with _ | ⟨pre, post⟩
  · rw [hs] at h
    exact Option.noConfusion h
  · rw [hs] at h
    rcases pre with _ | ⟨c, cs⟩
    · exact Option.noConfusion h
    · dsimp only at h
      rcases hcond : c.isAlpha && (c :: cs).all schemeChar with _ | _
      · rw [if_neg (by rw [hcond]; exact Bool.noConfusion)] at h
        exact Option.noConfusion h
      · rw [if_pos hcond] at h
        obtain ⟨h1, h2⟩ := splitFirst_some_spec hs
        rw [Bool.and_eq_true] at hcond
        injection h with h3
        injection h3 with h4 h5
        subst h5
        exact ⟨c, cs, h1, h2, hcond.1, hcond.2, h4.symm⟩

theorem splitNetlocL_default {l : List Char} (h : ∀ t, l ≠ '/' :: '/' :: t) :
    splitNetlocL l = ([], l) := by
  rcases l with _ | ⟨c1, l1⟩
  · rfl
  · rcases l1 with _ | ⟨c2, l2⟩
    · unfold splitNetlocL
      split
      · next heq =>
        injection heq with e1 e2
        exact List.noConfusion e2
      · rfl
    · by_cases h1 : c1 = '/'
      · by_cases h2 : c2 = '/'
        · subst h1; subst h2
          exact absurd rfl (h l2)
        · subst h1
          unfold splitNetlocL
          split
          · next heq =>
            injection heq with e1 e2
            injection e2 with e3 e4
            exact absurd e3 h2
          · rfl
      · unfold splitNetlocL
        split
        · next heq =>
          injection heq with e1 e2
          exact absurd e1 h1
        · rfl

theorem contains_eq_false_of_not_mem {c : Char} {l : List Char} (h : c ∉ l) :
    l.contains c = false := by
  rcases hc : l.contains c with _ | _
  · rfl
  · exact absurd (by simpa using hc) h

/-! ## Claim C4: fragment and query stage lemmas -/

theorem splitFragmentL_no_frag {l : List Char} (h : '#' ∉ l) :
    splitFragmentL l = (l, []) := by
  unfold splitFragmentL
  rw [splitFirst_of_not_mem h]

theorem splitQueryL_no_q {l : List Char} (h : '?' ∉ l) :
    splitQueryL l = (l, []) := by
  unfold splitQueryL
  rw [splitFirst_of_not_mem h]

theorem splitQueryL_append {a b : List Char} (h : '?' ∉ a) :
    splitQueryL (a ++ '?' :: b) = (a, b) := by
  unfold splitQueryL
  rw [splitFirst_append_not_mem h]

theorem splitFragmentL_spec (l : List Char) :
    ((splitFragmentL l).1 = l ∧ (splitFragmentL l).2 = [] ∧ '#' ∉ l) ∨
    (l = (splitFragmentL l).1 ++ '#' :: (splitFragmentL l).2 ∧
      '#' ∉ (splitFragmentL l).1) := by
  unfold splitFragmentL
  rcases hs : splitFirst '#' l with _ | ⟨a, b⟩
  · exact Or.inl ⟨rfl, rfl, splitFirst_none_imp hs⟩
  · obtain ⟨h1, h2⟩ := splitFirst_some_spec hs
    exact Or.inr ⟨h1, h2⟩

theorem splitQueryL_spec (l : List Char) :
    ((splitQueryL l).1 = l ∧ (splitQueryL l).2 = [] ∧ '?' ∉ l) ∨
    (l = (splitQueryL l).1 ++ '?' :: (splitQueryL l).2 ∧
      '?' ∉ (splitQueryL l).1) := by
  unfold splitQueryL
  rcases hs : splitFirst '?' l with _ | ⟨a, b⟩
  · exact Or.inl ⟨rfl, rfl, splitFirst_none_imp hs⟩
  · obtain ⟨h1, h2⟩ := splitFirst_some_spec hs
    exact Or.inr ⟨h1, h2⟩

/-! ## Claim C4: character class lemmas -/

theorem isDigit_iff (c : Char) :
    c.isDigit = true ↔ 48 ≤ c.toNat ∧ c.toNat ≤ 57 := by
  unfold Char.isDigit
  rw [Bool.and_eq_true, decide_eq_true_iff, decide_eq_true_iff]
  exact Iff.rfl

theorem schemeChar_bounds {c : Char} (h : schemeChar c = true) :
    43 ≤ c.toNat ∧ c.toNat ≤ 122 := by
  unfold schemeChar at h
  simp only [Bool.or_eq_true] at h
  rcases h with ((((h | h) | h) | h) | h)
  · rw [isAlpha_iff] at h
    omega
  · rw [isDigit_iff] at h
    omega
  · rw [beq_iff_eq.mp h]
    exact ⟨by decide, by decide⟩
  · rw [beq_iff_eq.mp h]
    exact ⟨by decide, by decide⟩
  · rw [beq_iff_eq.mp h]
    exact ⟨by decide, by decide⟩

theorem schemeChar_clean {c : Char} (h : schemeChar c = true) :
    unsafeURLByte c = false :=
  toNat_big_clean (by have := schemeChar_bounds h; omega)

theorem c0OrSpace_false {c : Char} (h : 0x20 < c.toNat) :
    c0OrSpace c = false := by
  unfold c0OrSpace
  rw [decide_eq_false_iff_not]
  omega

theorem toLower_clean {c : Char} (h : unsafeURLByte c = false) :
    unsafeURLByte c.toLower = false := by
  unfold unsafeURLByte at h ⊢
  simp only [Bool.or_eq_false_iff, beq_eq_false_iff_ne] at h ⊢
  refine ⟨⟨?_, ?_⟩, ?_⟩
  · intro hc
    exact h.1.1 (toLower_eq_of_low (by decide) hc)
  · intro hc
    exact h.1.2 (toLower_eq_of_low (by decide) hc)
  · intro hc
    exact h.2 (toLower_eq_of_low (by decide) hc)

theorem all_schemeChar_map_toLower {l : List Char}
    (h : l.all schemeChar = true) : (l.map Char.toLower).all schemeChar = true := by
  rw [List.all_eq_true] at h ⊢
  intro x hx
  rcases List.mem_map.mp hx with ⟨y, hy, he⟩
  rw [← he]
  exact schemeChar_toLower (h y hy)

/-! ## Claim C4: normalized path lemmas -/

theorem normPath_ne_nil (p : List Char) : normPath p ≠ [] := by
  unfold normPath
  rcases hr : rstripSlashes p with _ | ⟨x, xs⟩
  · exact List.cons_ne_nil _ _
  · exact List.cons_ne_nil _ _

theorem normPath_eq_self_cases {p : List Char} (h : normPath p = p) :
    p = ['/'] ∨ (rstripSlashes p = p ∧ p ≠ []) := by
  unfold normPath at h
  revert h
  rcases hr : rstripSlashes p with _ | ⟨x, xs⟩ <;> intro h
  · exact Or.inl h.symm
  · have h2 : x :: xs = p := h
    refine Or.inr ⟨h2, ?_⟩
    rw [← h2]
    exact List.cons_ne_nil _ _

theorem normPath_idem (p : List Char) : normPath (normPath p) = normPath p := by
  unfold normPath
  rcases hr : rstripSlashes p with _ | ⟨x, xs⟩
  · rfl
  · have h2 := rstripSlashes_idem p
    rw [hr] at h2
    rw [h2]

theorem normPath_subset {x : Char} {p : List Char} (h : x ∈ normPath p) :
    x = '/' ∨ x ∈ p := by
  unfold normPath at h
  revert h
  rcases hr : rstripSlashes p with _ | ⟨y, ys⟩ <;> intro h
  · rcases List.mem_cons.mp h with h2 | h2
    · exact Or.inl h2
    · exact absurd h2 (List.not_mem_nil x)
  · refine Or.inr (rstripSlashes_subset ?_)
    rw [hr]
    exact h

theorem normPath_head {p : List Char} (h : p = [] ∨ ∃ t, p = '/' :: t) :
    ∃ t2, normPath p = '/' :: t2 := by
  rcases h with h | ⟨t, ht⟩
  · subst h
    exact ⟨[], rfl⟩
  · subst ht
    unfold normPath
    rcases hr : rstripSlashes ('/' :: t) with _ | ⟨y, ys⟩
    · exact ⟨[], rfl⟩
    · obtain ⟨t2, ht2⟩ := rstripSlashes_head hr
      injection ht2 with e1 e2
      rw [← e1]
      exact ⟨ys, rfl⟩

theorem dropWhile_append_head {q : Char → Bool} {b : List Char} {y : Char}
    {ys : List Char} (hy : q y = false) :
    List.dropWhile q ((y :: ys) ++ b) = (y :: ys) ++ b := by
  rw [List.cons_append, List.dropWhile_cons, hy]
  simp

theorem dropWhile_length_le (q : Char → Bool) (l : List Char) :
    (l.dropWhile q).length ≤ l.length := by
  induction l with
  | nil => exact Nat.le_refl _
  | cons x xs ih =>
    rw [List.dropWhile_cons]
    split
    · exact Nat.le_trans ih (Nat.le_succ _)
    · exact Nat.le_refl _

theorem dropWhile_eq_self_head {q : Char → Bool} {y : Char} {ys : List Char}
    (h : List.dropWhile q (y :: ys) = y :: ys) : q y = false := by
  rcases hq : q y with _ | _
  · rfl
  · rw [List.dropWhile_cons, hq] at h
    simp only [if_true] at h
    have hlen := dropWhile_length_le q ys
    rw [h] at hlen
    simp at hlen

theorem rstrip_cons_stable {p : List Char} {x : Char}
    (hp : rstripSlashes p = p) (hne : p ≠ []) :
    rstripSlashes (x :: p) = x :: p := by
  have hd : List.dropWhile (fun c => c == '/') p.reverse = p.reverse := by
    have := congrArg List.reverse hp
    rwa [rstripSlashes, List.reverse_reverse] at this
  rcases hr : p.reverse with _ | ⟨y, ys⟩
  · exact absurd (List.reverse_eq_nil_iff.mp hr) hne
  · rw [hr] at hd
    have hy := dropWhile_eq_self_head hd
    unfold rstripSlashes
    rw [List.reverse_cons, hr,
      @dropWhile_append_head (fun c => c == '/') [x] y ys hy, ← hr,
      ← List.reverse_cons, List.reverse_reverse]

theorem rstripSlashes_append_slash (p : List Char) :
    rstripSlashes (p ++ ['/']) = rstripSlashes p := by
  unfold rstripSlashes
  rw [List.reverse_append]
  simp [List.dropWhile_cons]

theorem normPath_append_slash (p : List Char) :
    normPath (p ++ ['/']) = normPath p := by
  unfold normPath
  rw [rstripSlashes_append_slash]

theorem take_two_slash {v : List Char} (h : v.take 2 = ['/', '/']) :
    ∃ t, v = '/' :: '/' :: t := by
  rcases v with _ | ⟨a, v1⟩
  · simp at h
  · rcases v1 with _ | ⟨b, v2⟩
    · simp [List.take] at h
    · refine ⟨v2, ?_⟩
      simp [List.take] at h
      rw [h.1, h.2]

/-! ## Claim C4: netloc stage and cleanliness lemmas -/

theorem splitNetlocL_spec (l : List Char) :
    (splitNetlocL l = ([], l) ∧ ∀ t, l ≠ '/' :: '/' :: t) ∨
    (∃ r, l = '/' :: '/' :: r ∧ splitNetlocL l = takeUntilDelims r) := by
  by_cases h : ∃ t, l = '/' :: '/' :: t
  · obtain ⟨t, ht⟩ := h
    exact Or.inr ⟨t, ht, by rw [ht]; rfl⟩
  · push_neg at h
    exact Or.inl ⟨splitNetlocL_default h, h⟩

theorem splitNetlocL_no_ss {p rest : List Char} (hp : p ≠ [])
    (h2 : p.take 2 ≠ ['/', '/'])
    (hr : rest = [] ∨ ∃ q, rest = '?' :: q) :
    splitNetlocL (p ++ rest) = ([], p ++ rest) := by
  apply splitNetlocL_default
  intro t ht
  rcases p with _ | ⟨a, p1⟩
  · exact hp rfl
  · rcases p1 with _ | ⟨b, p2⟩
    · rw [List.singleton_append] at ht
      injection ht with e1 e2
      rcases hr with hr2 | ⟨q, hr2⟩
      · rw [hr2] at e2
        exact List.noConfusion e2
      · rw [hr2] at e2
        injection e2 with e3 e4
        exact absurd e3 (by decide)
    · rw [List.cons_append, List.cons_append] at ht
      injection ht with e1 e2
      injection e2 with e3 e4
      rw [e1, e3] at h2
      exact h2 rfl

theorem cleanURL_subset {x : Char} {l : List Char} (h : x ∈ cleanURL l) :
    x ∈ l := by
  unfold cleanURL removeUnsafe lstripC0 at h
  have h2 : x ∈ l.dropWhile c0OrSpace := List.mem_of_mem_filter h
  clear h
  induction l with
  | nil => simp at h2
  | cons y ys ih =>
    rw [List.dropWhile_cons] at h2
    revert h2
    split <;> intro h2
    · exact List.mem_cons_of_mem y (ih h2)
    · exact h2

theorem clean_append {P : Char → Prop} {a b : List Char}
    (ha : ∀ x ∈ a, P x) (hb : ∀ x ∈ b, P x) : ∀ x ∈ a ++ b, P x := by
  intro x hx
  rcases List.mem_append.mp hx with h | h
  · exact ha x h
  · exact hb x h

theorem clean_cons {P : Char → Prop} {c : Char} {l : List Char}
    (hc : P c) (hl : ∀ x ∈ l, P x) : ∀ x ∈ c :: l, P x := by
  intro x hx
  rcases List.mem_cons.mp hx with h | h
  · rw [h]; exact hc
  · exact hl x h

theorem map_toLower_clean {l : List Char}
    (h : ∀ x ∈ l, unsafeURLByte x = false) :
    ∀ x ∈ l.map Char.toLower, unsafeURLByte x = false := by
  intro x hx
  rcases List.mem_map.mp hx with ⟨y, hy, he⟩
  rw [← he]
  exact toLower_clean (h y hy)

theorem map_toLower_no_delim {l : List Char}
    (h : ∀ x ∈ l, ¬(x = '/' ∨ x = '?' ∨ x = '#')) :
    ∀ x ∈ l.map Char.toLower, ¬(x = '/' ∨ x = '?' ∨ x = '#') := by
  intro x hx hc
  rcases List.mem_map.mp hx with ⟨y, hy, he⟩
  refine h y hy ?_
  rcases hc with hc | hc | hc
  · exact Or.inl (by rw [← toLower_eq_of_low (by decide) (he.trans hc)])
  · exact Or.inr (Or.inl (by rw [← toLower_eq_of_low (by decide) (he.trans hc)]))
  · exact Or.inr (Or.inr (by rw [← toLower_eq_of_low (by decide) (he.trans hc)]))

/-! ## Claim C4: params and the normalize pipeline -/

theorem paramsSplit_no_semi {s n p q f : List Char} (h : ';' ∉ p) :
    paramsSplit ⟨s, n, p, q, f⟩ = ⟨s, n, p, [], q, f⟩ := by
  unfold paramsSplit
  rw [if_neg]
  intro hc
  have h2 := hc.2
  rw [contains_eq_false_of_not_mem h] at h2
  exact Bool.noConfusion h2

theorem normalizeL_eq_unsplit {u s n p q f : List Char}
    (hP : urlsplitL u [] = ⟨s, n, p, q, f⟩) (h : ';' ∉ p) :
    normalizeL u = urlunsplitL (s.map Char.toLower) (n.map Char.toLower)
      (normPath p) q [] := by
  unfold normalizeL urlparseL
  rw [hP, paramsSplit_no_semi h]
  dsimp only
  unfold urlunparseL
  rw [if_neg (fun hc => hc rfl)]

theorem splitFragmentL_qpart {P2 q : List Char} (h1 : '#' ∉ P2)
    (h2 : '#' ∉ q) :
    splitFragmentL (P2 ++ (if q ≠ [] then '?' :: q else [])) =
      (P2 ++ (if q ≠ [] then '?' :: q else []), []) := by
  apply splitFragmentL_no_frag
  intro hc
  rcases List.mem_append.mp hc with h | h
  · exact h1 h
  · by_cases hq : q = []
    · rw [if_neg (fun hx => hx hq)] at h
      exact List.not_mem_nil '#' h
    · rw [if_pos hq] at h
      rcases List.mem_cons.mp h with h3 | h3
      · exact absurd h3 (by decide)
      · exact h2 h3

theorem splitQueryL_qpart {P2 q : List Char} (h : '?' ∉ P2) :
    splitQueryL (P2 ++ (if q ≠ [] then '?' :: q else [])) = (P2, q) := by
  by_cases hq : q = []
  · rw [if_neg (fun hx => hx hq), List.append_nil, splitQueryL_no_q h, hq]
  · rw [if_pos hq]
    exact splitQueryL_append h

/-! ## Claim C4: the combined fragment and query stages -/

theorem fragQuery_spec (l : List Char) :
    '#' ∉ (splitQueryL (splitFragmentL l).1).1 ∧
    '?' ∉ (splitQueryL (splitFragmentL l).1).1 ∧
    '#' ∉ (splitQueryL (splitFragmentL l).1).2 ∧
    (∀ x ∈ (splitQueryL (splitFragmentL l).1).1, x ∈ l) ∧
    (∀ x ∈ (splitQueryL (splitFragmentL l).1).2, x ∈ l) ∧
    (∃ r2, l = (splitQueryL (splitFragmentL l).1).1 ++ r2 ∧
      (r2 = [] ∨ ∃ c t, r2 = c :: t ∧ (c = '#' ∨ c = '?'))) := by
  have hA1 : '#' ∉ (splitFragmentL l).1 := by
    rcases splitFragmentL_spec l with ⟨hf1, hf2, hf3⟩ | ⟨hf1, hf2⟩
    · rw [hf1]; exact hf3
    · exact hf2
  have hA2 : ∀ x ∈ (splitFragmentL l).1, x ∈ l := by
    rcases splitFragmentL_spec l with ⟨hf1, hf2, hf3⟩ | ⟨hf1, hf2⟩
    · intro x hx; rw [hf1] at hx; exact hx
    · intro x hx; rw [hf1]; exact List.mem_append_left _ hx
  have hA3 : ∃ rf, l = (splitFragmentL l).1 ++ rf ∧
      (rf = [] ∨ ∃ t, rf = '#' :: t) := by
    rcases splitFragmentL_spec l with ⟨hf1, hf2, hf3⟩ | ⟨hf1, hf2⟩
    · exact ⟨[], by rw [List.append_nil, hf1], Or.inl rfl⟩
    · exact ⟨'#' :: (splitFragmentL l).2, hf1, Or.inr ⟨_, rfl⟩⟩
  have hQ1 : '?' ∉ (splitQueryL (splitFragmentL l).1).1 := by
    rcases splitQueryL_spec (splitFragmentL l).1 with ⟨hq1, hq2, hq3⟩ | ⟨hq1, hq2⟩
    · rw [hq1]; exact hq3
    · exact hq2
  have hQ2 : ∀ x ∈ (splitQueryL (splitFragmentL l).1).1,
      x ∈ (splitFragmentL l).1 := by
    rcases splitQueryL_spec (splitFragmentL l).1 with ⟨hq1, hq2, hq3⟩ | ⟨hq1, hq2⟩
    · intro x hx; rw [hq1] at hx; exact hx
    · intro x hx; rw [hq1]; exact List.mem_append_left _ hx
  have hQ3 : ∀ x ∈ (splitQueryL (splitFragmentL l).1).2,
      x ∈ (splitFragmentL l).1 := by
    rcases splitQueryL_spec (splitFragmentL l).1 with ⟨hq1, hq2, hq3⟩ | ⟨hq1, hq2⟩
    · intro x hx; rw [hq2] at hx; exact absurd hx (List.not_mem_nil x)
    · intro x hx
      rw [hq1]
      exact List.mem_append_right _ (List.mem_cons_of_mem _ hx)
  have hQ4 : ∃ rq, (splitFragmentL l).1 = (splitQueryL (splitFragmentL l).1).1 ++ rq ∧
      (rq = [] ∨ ∃ t, rq = '?' :: t) := by
    rcases splitQueryL_spec (splitFragmentL l).1 with ⟨hq1, hq2, hq3⟩ | ⟨hq1, hq2⟩
    · exact ⟨[], by rw [List.append_nil, hq1], Or.inl rfl⟩
    · exact ⟨'?' :: (splitQueryL (splitFragmentL l).1).2, hq1, Or.inr ⟨_, rfl⟩⟩
  refine ⟨fun hc => hA1 (hQ2 _ hc), hQ1, fun hc => hA1 (hQ3 _ hc),
    fun x hx => hA2 x (hQ2 x hx), fun x hx => hA2 x (hQ3 x hx), ?_⟩
  obtain ⟨rf, hrf, hrfs⟩ := hA3
  obtain ⟨rq, hrq, hrqs⟩ := hQ4
  refine ⟨rq ++ rf, by rw [← List.append_assoc, ← hrq, ← hrf], ?_⟩
  rcases hrqs with h | ⟨t, ht⟩
  · rw [h, List.nil_append]
    rcases hrfs with h2 | ⟨t2, ht2⟩
    · exact Or.inl h2
    · exact Or.inr ⟨'#', t2, ht2, Or.inl rfl⟩
  · exact Or.inr ⟨'?', t ++ rf, by rw [ht, List.cons_append], Or.inr rfl⟩

theorem urlsplitRest_spec (sch rest : List Char) :
    (∀ x ∈ (urlsplitRest sch rest).netloc, ¬(x = '/' ∨ x = '?' ∨ x = '#')) ∧
    (∀ x ∈ (urlsplitRest sch rest).netloc, x ∈ rest) ∧
    (∀ x ∈ (urlsplitRest sch rest).path, x ∈ rest) ∧
    (∀ x ∈ (urlsplitRest sch rest).query, x ∈ rest) ∧
    '#' ∉ (urlsplitRest sch rest).path ∧ '?' ∉ (urlsplitRest sch rest).path ∧
    '#' ∉ (urlsplitRest sch rest).query ∧
    ((urlsplitRest sch rest).netloc ≠ [] →
      (urlsplitRest sch rest).path = [] ∨ ∃ t, (urlsplitRest sch rest).path = '/' :: t) ∧
    ((∃ r2, rest = (urlsplitRest sch rest).path ++ r2 ∧
        (r2 = [] ∨ ∃ c t, r2 = c :: t ∧ (c = '#' ∨ c = '?'))) ∨
      ((urlsplitRest sch rest).path = [] ∨
        ∃ t, (urlsplitRest sch rest).path = '/' :: t)) := by
  have hnl : (urlsplitRest sch rest).netloc = (splitNetlocL rest).1 := rfl
  have hpa : (urlsplitRest sch rest).path =
      (splitQueryL (splitFragmentL (splitNetlocL rest).2).1).1 := rfl
  have hqu : (urlsplitRest sch rest).query =
      (splitQueryL (splitFragmentL (splitNetlocL rest).2).1).2 := rfl
  rw [hnl, hpa, hqu]
  rcases splitNetlocL_spec rest with ⟨hd, hne⟩ | ⟨r, hr, hd⟩
  · have hN1 : (splitNetlocL rest).1 = [] := by rw [hd]
    have hN2 : (splitNetlocL rest).2 = rest := by rw [hd]
    rw [hN1, hN2]
    obtain ⟨f1, f2, f3, f4, f5, f6⟩ := fragQuery_spec rest
    exact ⟨fun x hx => absurd hx (List.not_mem_nil x),
      fun x hx => absurd hx (List.not_mem_nil x), f4, f5, f1, f2, f3,
      fun hc => absurd rfl hc, Or.inl f6⟩
  · have hN1 : (splitNetlocL rest).1 = (takeUntilDelims r).1 := by rw [hd]
    have hN2 : (splitNetlocL rest).2 = (takeUntilDelims r).2 := by rw [hd]
    rw [hN1, hN2]
    obtain ⟨t1, t2, t3⟩ := takeUntilDelims_spec r
    obtain ⟨f1, f2, f3, f4, f5, f6⟩ := fragQuery_spec (takeUntilDelims r).2
    have hsubr : ∀ x, x ∈ r → x ∈ rest := by
      intro x hx
      rw [hr]
      exact List.mem_cons_of_mem _ (List.mem_cons_of_mem _ hx)
    have hsubt2 : ∀ x, x ∈ (takeUntilDelims r).2 → x ∈ r := by
      intro x hx
      rw [t1]
      exact List.mem_append_right _ hx
    have hsubt1 : ∀ x, x ∈ (takeUntilDelims r).1 → x ∈ r := by
      intro x hx
      rw [t1]
      exact List.mem_append_left _ hx
    have hPhead : (splitQueryL (splitFragmentL (takeUntilDelims r).2).1).1 = [] ∨
        ∃ t, (splitQueryL (splitFragmentL (takeUntilDelims r).2).1).1 = '/' :: t := by
      obtain ⟨r2, hr2, hr2s⟩ := f6
      rcases hP : (splitQueryL (splitFragmentL (takeUntilDelims r).2).1).1 with _ | ⟨y, ps⟩
      · exact Or.inl rfl
      · rcases t3 with h3 | ⟨d, t', h3, hdel⟩
        · rw [hP] at hr2
          rw [h3] at hr2
          exact absurd hr2.symm (by simp)
        · rw [hP] at hr2
          rw [h3, List.cons_append] at hr2
          injection hr2 with e1 e2
          rcases hdel with hdel | hdel | hdel
          · exact Or.inr ⟨ps, by rw [e1.symm.trans hdel]⟩
          · exfalso
            refine f2 ?_
            rw [hP, ← hdel, e1]
            exact List.mem_cons_self y ps
          · exfalso
            refine f1 ?_
            rw [hP, ← hdel, e1]
            exact List.mem_cons_self y ps
    exact ⟨t2, fun x hx => hsubr x (hsubt1 x hx),
      fun x hx => hsubr x (hsubt2 x (f4 x hx)),
      fun x hx => hsubr x (hsubt2 x (f5 x hx)), f1, f2, f3,
      fun _ => hPhead, Or.inr hPhead⟩

theorem urlunsplitL_prepend {s n p q : List Char}
    (hc : n ≠ [] ∨ (s ≠ [] ∧ usesNetloc.contains s ∧ p.take 2 ≠ ['/', '/']))
    (hp : ∃ t, p = '/' :: t) :
    urlunsplitL s n p q [] = buildO s ('/' :: '/' :: (n ++ p)) q := by
  obtain ⟨t, ht⟩ := hp
  have hins : ¬(p ≠ [] ∧ p.take 1 ≠ ['/']) := fun hx => hx.2 (by rw [ht]; rfl)
  simp only [urlunsplitL, buildO]
  rw [if_pos hc, if_neg hins]
  by_cases hs : s = [] <;> by_cases hq : q = [] <;>
    simp [hs, hq, List.append_assoc]

theorem urlunsplitL_prepend_ins {s p q : List Char}
    (hc : s ≠ [] ∧ usesNetloc.contains s ∧ p.take 2 ≠ ['/', '/'])
    (hp1 : p ≠ []) (hp2 : p.take 1 ≠ ['/']) :
    urlunsplitL s [] p q [] = buildO s ('/' :: '/' :: '/' :: p) q := by
  have hins : p ≠ [] ∧ p.take 1 ≠ ['/'] := ⟨hp1, hp2⟩
  have hor : ([] : List Char) ≠ [] ∨
      (s ≠ [] ∧ usesNetloc.contains s ∧ p.take 2 ≠ ['/', '/']) := Or.inr hc
  simp only [urlunsplitL, buildO]
  rw [if_pos hor, if_pos hins]
  by_cases hq : q = [] <;> simp [hc.1, hq, List.append_assoc]

theorem urlunsplitL_plain {s n p q : List Char}
    (hc : ¬(n ≠ [] ∨ (s ≠ [] ∧ usesNetloc.contains s ∧ p.take 2 ≠ ['/', '/']))) :
    urlunsplitL s n p q [] = buildO s p q := by
  simp only [urlunsplitL, buildO]
  rw [if_neg hc]
  by_cases hs : s = [] <;> by_cases hq : q = [] <;>
    simp [hs, hq, List.append_assoc]

theorem splitNetlocL_cons2 (x : List Char) :
    splitNetlocL ('/' :: '/' :: x) = takeUntilDelims x := rfl

theorem urlsplitRest_netloc {sch n P2 q : List Char}
    (Hn_delim : ∀ x ∈ n, ¬(x = '/' ∨ x = '?' ∨ x = '#'))
    (HP_nof : '#' ∉ P2) (HP_noq : '?' ∉ P2) (Hq_nof : '#' ∉ q)
    (hp : ∃ t, P2 = '/' :: t) :
    urlsplitRest sch
      (('/' :: '/' :: (n ++ P2)) ++ (if q ≠ [] then '?' :: q else [])) =
      ⟨sch, n, P2, q, []⟩ := by
  obtain ⟨t, ht⟩ := hp
  have hM : ('/' :: '/' :: (n ++ P2)) ++ (if q ≠ [] then '?' :: q else []) =
      '/' :: '/' :: (n ++ '/' :: (t ++ (if q ≠ [] then '?' :: q else []))) := by
    rw [ht]
    simp [List.append_assoc]
  have h1 : splitNetlocL
      (('/' :: '/' :: (n ++ P2)) ++ (if q ≠ [] then '?' :: q else [])) =
      (n, P2 ++ (if q ≠ [] then '?' :: q else [])) := by
    rw [hM, splitNetlocL_cons2,
      takeUntilDelims_append Hn_delim (Or.inl rfl), ht]
    rw [List.cons_append]
  have h2 : splitFragmentL (P2 ++ (if q ≠ [] then '?' :: q else [])) =
      (P2 ++ (if q ≠ [] then '?' :: q else []), []) :=
    splitFragmentL_qpart HP_nof Hq_nof
  have h3 : splitQueryL (P2 ++ (if q ≠ [] then '?' :: q else [])) = (P2, q) :=
    splitQueryL_qpart HP_noq
  have e : urlsplitRest sch
      (('/' :: '/' :: (n ++ P2)) ++ (if q ≠ [] then '?' :: q else [])) =
      ⟨sch,
        (splitNetlocL (('/' :: '/' :: (n ++ P2)) ++
          (if q ≠ [] then '?' :: q else []))).1,
        (splitQueryL (splitFragmentL (splitNetlocL (('/' :: '/' :: (n ++ P2)) ++
          (if q ≠ [] then '?' :: q else []))).2).1).1,
        (splitQueryL (splitFragmentL (splitNetlocL (('/' :: '/' :: (n ++ P2)) ++
          (if q ≠ [] then '?' :: q else []))).2).1).2,
        (splitFragmentL (splitNetlocL (('/' :: '/' :: (n ++ P2)) ++
          (if q ≠ [] then '?' :: q else []))).2).2⟩ := rfl
  rw [e, h1]
  dsimp only
  rw [h2]
  dsimp only
  rw [h3]

theorem urlsplitRest_plain {sch P2 q : List Char}
    (HP_nof : '#' ∉ P2) (HP_noq : '?' ∉ P2) (Hq_nof : '#' ∉ q)
    (hne : P2 ≠ []) (ht2 : P2.take 2 ≠ ['/', '/']) :
    urlsplitRest sch (P2 ++ (if q ≠ [] then '?' :: q else [])) =
      ⟨sch, [], P2, q, []⟩ := by
  have h1 : splitNetlocL (P2 ++ (if q ≠ [] then '?' :: q else [])) =
      ([], P2 ++ (if q ≠ [] then '?' :: q else [])) := by
    apply splitNetlocL_no_ss hne ht2
    by_cases hq : q = []
    · rw [if_neg (fun hx => hx hq)]
      exact Or.inl rfl
    · rw [if_pos hq]
      exact Or.inr ⟨q, rfl⟩
  have h2 : splitFragmentL (P2 ++ (if q ≠ [] then '?' :: q else [])) =
      (P2 ++ (if q ≠ [] then '?' :: q else []), []) :=
    splitFragmentL_qpart HP_nof Hq_nof
  have h3 : splitQueryL (P2 ++ (if q ≠ [] then '?' :: q else [])) = (P2, q) :=
    splitQueryL_qpart HP_noq
  have e : urlsplitRest sch (P2 ++ (if q ≠ [] then '?' :: q else [])) =
      ⟨sch,
        (splitNetlocL (P2 ++ (if q ≠ [] then '?' :: q else []))).1,
        (splitQueryL (splitFragmentL (splitNetlocL (P2 ++
          (if q ≠ [] then '?' :: q else []))).2).1).1,
        (splitQueryL (splitFragmentL (splitNetlocL (P2 ++
          (if q ≠ [] then '?' :: q else []))).2).1).2,
        (splitFragmentL (splitNetlocL (P2 ++
          (if q ≠ [] then '?' :: q else []))).2).2⟩ := rfl
  rw [e, h1]
  dsimp only
  rw [h2]
  dsimp only
  rw [h3]

theorem qpart_clean {q : List Char}
    (Hq_clean : ∀ x ∈ q, unsafeURLByte x = false) :
    ∀ x ∈ (if q ≠ [] then '?' :: q else []), unsafeURLByte x = false := by
  by_cases hq : q = []
  · rw [if_neg (fun hx => hx hq)]
    exact fun x hx => absurd hx (List.not_mem_nil x)
  · rw [if_pos hq]
    exact clean_cons (by decide) Hq_clean

theorem urlsplitL_buildO_netloc {s n P2 q : List Char}
    (Hs : s = [] ∨ ∃ c cs, s = c :: cs ∧ c.isAlpha = true ∧
      (c :: cs).all schemeChar = true ∧ s.map Char.toLower = s)
    (Hn_delim : ∀ x ∈ n, ¬(x = '/' ∨ x = '?' ∨ x = '#'))
    (Hn_clean : ∀ x ∈ n, unsafeURLByte x = false)
    (HP_nof : '#' ∉ P2) (HP_noq : '?' ∉ P2)
    (HP_clean : ∀ x ∈ P2, unsafeURLByte x = false)
    (Hq_nof : '#' ∉ q) (Hq_clean : ∀ x ∈ q, unsafeURLByte x = false)
    (hp : ∃ t, P2 = '/' :: t) :
    urlsplitL (buildO s ('/' :: '/' :: (n ++ P2)) q) [] = ⟨s, n, P2, q, []⟩ := by
  have hQclean := qpart_clean Hq_clean
  have hMclean : ∀ x ∈ '/' :: '/' :: (n ++ P2), unsafeURLByte x = false :=
    clean_cons (by decide)
      (clean_cons (by decide) (clean_append Hn_clean HP_clean))
  rcases Hs with hs0 | ⟨c, cs, hseq, hca, hall, hlow⟩
  · subst hs0
    have hbo2 : buildO [] ('/' :: '/' :: (n ++ P2)) q =
        ('/' :: '/' :: (n ++ P2)) ++ (if q ≠ [] then '?' :: q else []) := by
      unfold buildO
      rw [if_neg (fun hx => hx rfl), List.nil_append]
    have h1 : ∀ x ∈ buildO [] ('/' :: '/' :: (n ++ P2)) q,
        unsafeURLByte x = false := by
      unfold buildO
      rw [if_neg (fun hx => hx rfl), List.nil_append]
      exact clean_append hMclean hQclean
    have hclean : cleanURL (buildO [] ('/' :: '/' :: (n ++ P2)) q) =
        buildO [] ('/' :: '/' :: (n ++ P2)) q := by
      apply cleanURL_eq_self h1
      intro x xs h
      rw [hbo2, List.cons_append] at h
      injection h with e1 e2
      rw [← e1]
      exact c0OrSpace_false (by decide)
    simp only [urlsplitL]
    rw [hclean]
    have hsch : splitSchemeL (buildO [] ('/' :: '/' :: (n ++ P2)) q) = none := by
      rw [hbo2, List.cons_append]
      exact splitSchemeL_head_not_alpha (by decide)
    rw [hsch]
    show urlsplitRest [] (buildO [] ('/' :: '/' :: (n ++ P2)) q) = _
    rw [hbo2]
    exact urlsplitRest_netloc Hn_delim HP_nof HP_noq Hq_nof hp
  · subst hseq
    have hsne : (c :: cs : List Char) ≠ [] := List.cons_ne_nil _ _
    have hbo : buildO (c :: cs) ('/' :: '/' :: (n ++ P2)) q =
        (c :: cs) ++ ':' :: (('/' :: '/' :: (n ++ P2)) ++
          (if q ≠ [] then '?' :: q else [])) := by
      unfold buildO
      rw [if_pos hsne, List.append_assoc, List.append_assoc,
        List.singleton_append]
    have h1 : ∀ x ∈ buildO (c :: cs) ('/' :: '/' :: (n ++ P2)) q,
        unsafeURLByte x = false := by
      unfold buildO
      rw [if_pos hsne]
      refine clean_append (clean_append (clean_append ?_ ?_) hMclean) hQclean
      · intro x hx
        exact schemeChar_clean ((List.all_eq_true.mp hall) x hx)
      · exact clean_cons (by decide) (fun x hx => absurd hx (List.not_mem_nil x))
    have hclean : cleanURL (buildO (c :: cs) ('/' :: '/' :: (n ++ P2)) q) =
        buildO (c :: cs) ('/' :: '/' :: (n ++ P2)) q := by
      apply cleanURL_eq_self h1
      intro x xs h
      rw [hbo, List.cons_append] at h
      injection h with e1 e2
      rw [← e1]
      exact c0OrSpace_false (by have := isAlpha_toNat_big hca; omega)
    simp only [urlsplitL]
    rw [hclean, hbo, splitSchemeL_valid hca hall]
    show urlsplitRest ((c :: cs).map Char.toLower)
      (('/' :: '/' :: (n ++ P2)) ++ (if q ≠ [] then '?' :: q else [])) = _
    rw [hlow]
    exact urlsplitRest_netloc Hn_delim HP_nof HP_noq Hq_nof hp

theorem urlsplitL_buildO_plain {s P2 q : List Char}
    (Hs : s = [] ∨ ∃ c cs, s = c :: cs ∧ c.isAlpha = true ∧
      (c :: cs).all schemeChar = true ∧ s.map Char.toLower = s)
    (HP_nof : '#' ∉ P2) (HP_noq : '?' ∉ P2)
    (HP_clean : ∀ x ∈ P2, unsafeURLByte x = false)
    (Hq_nof : '#' ∉ q) (Hq_clean : ∀ x ∈ q, unsafeURLByte x = false)
    (hne : P2 ≠ []) (ht2 : P2.take 2 ≠ ['/', '/'])
    (hnos : s = [] → ∀ a b, P2 = a ++ ':' :: b → ':' ∉ a →
      ∀ c cs, a = c :: cs →
        ¬(c.isAlpha = true ∧ (c :: cs).all schemeChar = true))
    (hhead : s = [] → ∀ c t, P2 = c :: t → 0x20 < c.toNat) :
    urlsplitL (buildO s P2 q) [] = ⟨s, [], P2, q, []⟩ := by
  have hQclean := qpart_clean Hq_clean
  rcases Hs with hs0 | ⟨c, cs, hseq, hca, hall, hlow⟩
  · subst hs0
    have hbo2 : buildO [] P2 q =
        P2 ++ (if q ≠ [] then '?' :: q else []) := by
      unfold buildO
      rw [if_neg (fun hx => hx rfl), List.nil_append]
    have h1 : ∀ x ∈ buildO [] P2 q, unsafeURLByte x = false := by
      unfold buildO
      rw [if_neg (fun hx => hx rfl), List.nil_append]
      exact clean_append HP_clean hQclean
    have hclean : cleanURL (buildO [] P2 q) = buildO [] P2 q := by
      apply cleanURL_eq_self h1
      intro x xs h
      rw [hbo2] at h
      rcases hP : P2 with _ | ⟨y, ps⟩
      · exact absurd hP hne
      · rw [hP, List.cons_append] at h
        injection h with e1 e2
        rw [← e1]
        exact c0OrSpace_false (hhead rfl y ps hP)
    simp only [urlsplitL]
    rw [hclean]
    have hsch : splitSchemeL (buildO [] P2 q) = none := by
      rcases hs : splitSchemeL (buildO [] P2 q) with _ | ⟨sch, rest⟩
      · rfl
      · exfalso
        obtain ⟨c, cs, hdec, hnc, hca, hall2, _⟩ := splitSchemeL_some_spec hs
        rw [hbo2] at hdec
        rcases List.append_eq_append_iff.mp hdec with ⟨a2, ha1, ha2⟩ |
          ⟨c2, hc1, hc2⟩
        · rcases a2 with _ | ⟨y, ys⟩
          · rw [List.nil_append] at ha2
            by_cases hq : q = []
            · rw [if_neg (fun hx => hx hq)] at ha2
              exact List.noConfusion ha2
            · rw [if_pos hq] at ha2
              injection ha2 with e1 e2
              exact absurd e1 (by decide)
          · have hy : y ∈ c :: cs := by
              rw [ha1]
              exact List.mem_append_right _ (List.mem_cons_self y ys)
            have hy2 : schemeChar y = true := (List.all_eq_true.mp hall2) y hy
            by_cases hq : q = []
            · rw [if_neg (fun hx => hx hq)] at ha2
              simp at ha2
            · rw [if_pos hq, List.cons_append] at ha2
              injection ha2 with e1 e2
              rw [← e1] at hy2
              exact absurd hy2 (by decide)
        · rcases c2 with _ | ⟨z, zs⟩
          · rw [List.nil_append] at hc2
            by_cases hq : q = []
            · rw [if_neg (fun hx => hx hq)] at hc2
              exact List.noConfusion hc2
            · rw [if_pos hq] at hc2
              injection hc2 with e1 e2
              exact absurd e1 (by decide)
          · rw [List.cons_append] at hc2
            injection hc2 with e1 e2
            rw [← e1] at hc1
            exact hnos rfl (c :: cs) zs hc1 hnc c cs rfl ⟨hca, hall2⟩
    rw [hsch]
    show urlsplitRest [] (buildO [] P2 q) = _
    rw [hbo2]
    exact urlsplitRest_plain HP_nof HP_noq Hq_nof hne ht2
  · subst hseq
    have hsne : (c :: cs : List Char) ≠ [] := List.cons_ne_nil _ _
    have hbo : buildO (c :: cs) P2 q =
        (c :: cs) ++ ':' :: (P2 ++ (if q ≠ [] then '?' :: q else [])) := by
      unfold buildO
      rw [if_pos hsne, List.append_assoc, List.append_assoc,
        List.singleton_append]
    have h1 : ∀ x ∈ buildO (c :: cs) P2 q, unsafeURLByte x = false := by
      unfold buildO
      rw [if_pos hsne]
      refine clean_append (clean_append (clean_append ?_ ?_) HP_clean) hQclean
      · intro x hx
        exact schemeChar_clean ((List.all_eq_true.mp hall) x hx)
      · exact clean_cons (by decide) (fun x hx => absurd hx (List.not_mem_nil x))
    have hclean : cleanURL (buildO (c :: cs) P2 q) = buildO (c :: cs) P2 q := by
      apply cleanURL_eq_self h1
      intro x xs h
      rw [hbo, List.cons_append] at h
      injection h with e1 e2
      rw [← e1]
      exact c0OrSpace_false (by have := isAlpha_toNat_big hca; omega)
    simp only [urlsplitL]
    rw [hclean, hbo, splitSchemeL_valid hca hall]
    show urlsplitRest ((c :: cs).map Char.toLower)
      (P2 ++ (if q ≠ [] then '?' :: q else [])) = _
    rw [hlow]
    exact urlsplitRest_plain HP_nof HP_noq Hq_nof hne ht2

theorem normalize_unsplit_fixed {s n p q : List Char}
    (Hs : s = [] ∨ ∃ c cs, s = c :: cs ∧ c.isAlpha = true ∧
      (c :: cs).all schemeChar = true ∧ s.map Char.toLower = s)
    (Hn_delim : ∀ x ∈ n, ¬(x = '/' ∨ x = '?' ∨ x = '#'))
    (Hn_lower : n.map Char.toLower = n)
    (Hn_clean : ∀ x ∈ n, unsafeURLByte x = false)
    (Hp_norm : normPath p = p)
    (Hp_nof : '#' ∉ p) (Hp_noq : '?' ∉ p) (Hp_nosemi : ';' ∉ p)
    (Hp_clean : ∀ x ∈ p, unsafeURLByte x = false)
    (Hq_nof : '#' ∉ q) (Hq_clean : ∀ x ∈ q, unsafeURLByte x = false)
    (Hshape : n = [] → p.take 2 ≠ ['/', '/'])
    (Hnp : n ≠ [] → ∃ t, p = '/' :: t)
    (Hnoscheme : s = [] → n = [] → ∀ a b, p = a ++ ':' :: b → ':' ∉ a →
      ∀ c cs, a = c :: cs →
        ¬(c.isAlpha = true ∧ (c :: cs).all schemeChar = true))
    (Hhead : s = [] → n = [] → ∀ c t, p = c :: t → 0x20 < c.toNat) :
    normalizeL (urlunsplitL s n p q []) = urlunsplitL s n p q [] := by
  have hs_lower : s.map Char.toLower = s := by
    rcases Hs with h | ⟨c, cs, hseq, h1, h2, hlow⟩
    · rw [h]
      rfl
    · exact hlow
  have hpne : p ≠ [] := by
    rw [← Hp_norm]
    exact normPath_ne_nil p
  by_cases hC : n ≠ [] ∨
      (s ≠ [] ∧ usesNetloc.contains s ∧ p.take 2 ≠ ['/', '/'])
  · by_cases hsl : p.take 1 = ['/']
    · have hp : ∃ t, p = '/' :: t := by
        rcases hP : p with _ | ⟨y, t⟩
        · exact absurd hP hpne
        · rw [hP] at hsl
          simp [List.take] at hsl
          exact ⟨t, by rw [hsl]⟩
      have hA := @urlunsplitL_prepend s n p q hC hp
      have hB := urlsplitL_buildO_netloc Hs Hn_delim Hn_clean Hp_nof Hp_noq
        Hp_clean Hq_nof Hq_clean hp
      rw [hA, normalizeL_eq_unsplit hB Hp_nosemi, hs_lower, Hn_lower, Hp_norm]
      exact hA
    · have hn : n = [] := by
        by_contra hn
        obtain ⟨t, ht⟩ := Hnp hn
        exact hsl (by rw [ht]; rfl)
      subst hn
      have hC2 : s ≠ [] ∧ usesNetloc.contains s ∧ p.take 2 ≠ ['/', '/'] := by
        rcases hC with h | h
        · exact absurd rfl h
        · exact h
      have hA := @urlunsplitL_prepend_ins s p q hC2 hpne hsl
      have hPf : '#' ∉ ('/' :: p) := by
        intro hc
        rcases List.mem_cons.mp hc with h | h
        · exact absurd h (by decide)
        · exact Hp_nof h
      have hPq : '?' ∉ ('/' :: p) := by
        intro hc
        rcases List.mem_cons.mp hc with h | h
        · exact absurd h (by decide)
        · exact Hp_noq h
      have hPs : ';' ∉ ('/' :: p) := by
        intro hc
        rcases List.mem_cons.mp hc with h | h
        · exact absurd h (by decide)
        · exact Hp_nosemi h
      have hB := urlsplitL_buildO_netloc Hs
        (fun x hx => absurd hx (List.not_mem_nil x))
        (fun x hx => absurd hx (List.not_mem_nil x))
        hPf hPq (clean_cons (by decide) Hp_clean) Hq_nof Hq_clean
        ⟨p, rfl⟩
      rw [List.nil_append] at hB
      rw [hA, normalizeL_eq_unsplit hB hPs, hs_lower, List.map_nil]
      have hnp2 : normPath ('/' :: p) = '/' :: p := by
        rcases normPath_eq_self_cases Hp_norm with h | ⟨h1, h2⟩
        · exact absurd (by rw [h]; rfl) hsl
        · unfold normPath
          rw [rstrip_cons_stable h1 h2]
      rw [hnp2]
      have h2b : ('/' :: p).take 2 ≠ ['/', '/'] := by
        intro hc
        obtain ⟨t, ht⟩ := take_two_slash hc
        injection ht with e1 e2
        exact hsl (by rw [e2]; rfl)
      have hfin := @urlunsplitL_prepend s [] ('/' :: p) q
        (Or.inr ⟨hC2.1, hC2.2.1, h2b⟩) ⟨p, rfl⟩
      rw [List.nil_append] at hfin
      exact hfin
  · have hn : n = [] := by
      by_contra hn
      exact hC (Or.inl hn)
    subst hn
    have hA := @urlunsplitL_plain s [] p q hC
    have hB := urlsplitL_buildO_plain Hs Hp_nof Hp_noq Hp_clean Hq_nof
      Hq_clean hpne (Hshape rfl) (fun hs0 => Hnoscheme hs0 rfl)
      (fun hs0 => Hhead hs0 rfl)
    rw [hA, normalizeL_eq_unsplit hB Hp_nosemi, hs_lower, List.map_nil,
      Hp_norm]
    exact hA

theorem map_toLower_eq_nil {l : List Char} (h : l.map Char.toLower = []) :
    l = [] := by
  rcases l with _ | ⟨a, t⟩
  · rfl
  · simp at h

theorem normalizeL_idem_aux {u sch rest : List Char}
    (hU : urlsplitL u [] = urlsplitRest sch rest)
    (hS : sch = [] ∨ ∃ c cs, sch = c :: cs ∧ c.isAlpha = true ∧
      (c :: cs).all schemeChar = true ∧ sch.map Char.toLower = sch)
    (hrw : ∀ x ∈ rest, x ∈ cleanURL u)
    (hsemi : ';' ∉ u)
    (hnone : sch = [] → splitSchemeL (cleanURL u) = none ∧ rest = cleanURL u)
    (hok : (urlsplitL u []).netloc ≠ [] ∨
      (urlsplitL u []).path.take 2 ≠ ['/', '/']) :
    normalizeL (normalizeL u) = normalizeL u := by
  obtain ⟨sp1, sp2, sp3, sp4, sp5, sp6, sp7, sp8, sp9⟩ := urlsplitRest_spec sch rest
  rw [← hU] at sp1 sp2 sp3 sp4 sp5 sp6 sp7 sp8 sp9
  have hsubu : ∀ x, x ∈ rest → x ∈ u := fun x hx => cleanURL_subset (hrw x hx)
  have hscheme_eq : (urlsplitL u []).scheme = sch := by rw [hU]; rfl
  have hpsemi : ';' ∉ (urlsplitL u []).path :=
    fun hc => hsemi (hsubu _ (sp3 _ hc))
  have hEq1 : normalizeL u =
      urlunsplitL ((urlsplitL u []).scheme.map Char.toLower)
        ((urlsplitL u []).netloc.map Char.toLower)
        (normPath (urlsplitL u []).path) (urlsplitL u []).query [] :=
    normalizeL_eq_unsplit rfl hpsemi
  rw [hEq1]
  apply normalize_unsplit_fixed
  -- scheme validity
  · rcases hS with h | ⟨c, cs, hseq, hca, hall, hlow⟩
    · left
      rw [hscheme_eq, h]
      rfl
    · right
      refine ⟨c, cs, by rw [hscheme_eq, hlow, hseq], hca, hall, ?_⟩
      rw [hscheme_eq, hlow, hlow]
  -- lowered netloc has no delimiters
  · exact map_toLower_no_delim sp1
  -- lowering is idempotent on the netloc
  · exact map_toLower_idem _
  -- lowered netloc is clean
  · exact map_toLower_clean (fun x hx => cleanURL_mem_clean (hrw x (sp2 x hx)))
  -- normPath is idempotent
  · exact normPath_idem _
  -- no fragment marker in the normalized path
  · intro hc
    rcases normPath_subset hc with h | h
    · exact absurd h (by decide)
    · exact sp5 h
  -- no query marker in the normalized path
  · intro hc
    rcases normPath_subset hc with h | h
    · exact absurd h (by decide)
    · exact sp6 h
  -- no semicolon in the normalized path
  · intro hc
    rcases normPath_subset hc with h | h
    · exact absurd h (by decide)
    · exact hsemi (hsubu _ (sp3 _ h))
  -- normalized path is clean
  · intro x hx
    rcases normPath_subset hx with h | h
    · rw [h]
      rfl
    · exact cleanURL_mem_clean (hrw x (sp3 x h))
  -- no fragment marker in the query
  · exact sp7
  -- query is clean
  · exact fun x hx => cleanURL_mem_clean (hrw x (sp4 x hx))
  -- shape: empty netloc implies the path cannot begin with //
  · intro hm hc
    have hnl : (urlsplitL u []).netloc = [] := map_toLower_eq_nil hm
    have htk : (urlsplitL u []).path.take 2 ≠ ['/', '/'] := by
      rcases hok with h | h
      · exact absurd hnl h
      · exact h
    obtain ⟨t, ht⟩ := take_two_slash hc
    refine htk ?_
    unfold normPath at ht
    revert ht
    rcases hr : rstripSlashes (urlsplitL u []).path with _ | ⟨y, ys⟩ <;>
      intro ht
    · injection ht with e1 e2
      exact List.noConfusion e2
    · have h3 : y :: ys = '/' :: '/' :: t := ht
      obtain ⟨k, hk⟩ := rstripSlashes_exists (urlsplitL u []).path
      rw [hr, h3] at hk
      rw [hk]
      rfl
  -- a nonempty netloc forces a slash-headed normalized path
  · intro hm
    have hnl : (urlsplitL u []).netloc ≠ [] :=
      fun h => hm (by rw [h]; rfl)
    exact normPath_head (sp8 hnl)
  -- with no scheme and no netloc the path cannot begin with a valid scheme
  · intro hs0 hn0 a b hdec2 hnc c cs hacs hvalid
    have hsch0 : sch = [] := by
      rw [← hscheme_eq]
      exact map_toLower_eq_nil hs0
    obtain ⟨hsnone, hrest⟩ := hnone hsch0
    rw [hacs] at hdec2
    rcases sp9 with ⟨r2, hr2, hr2s⟩ | hph
    · revert hdec2
      unfold normPath
      rcases hr : rstripSlashes (urlsplitL u []).path with _ | ⟨y, ys⟩ <;>
        intro hdec2
      · rcases cs with _ | ⟨c2, cs2⟩
        · injection hdec2 with e1 e2
          exact List.noConfusion e2
        · injection hdec2 with e1 e2
          injection e2
      · have h3 : y :: ys = (c :: cs) ++ ':' :: b := hdec2
        obtain ⟨k, hk⟩ := rstripSlashes_exists (urlsplitL u []).path
        rw [hr, h3] at hk
        have hw : cleanURL u = (c :: cs) ++ ':' ::
            (b ++ List.replicate k '/' ++ r2) := by
          rw [← hrest, hr2, hk]
          simp [List.append_assoc]
        rw [hw, splitSchemeL_valid hvalid.1 hvalid.2] at hsnone
        exact Option.noConfusion hsnone
    · obtain ⟨t2, ht2⟩ := normPath_head hph
      rw [ht2] at hdec2
      rcases cs with _ | ⟨c2, cs2⟩
      · injection hdec2 with e1 e2
        rw [← e1] at hvalid
        exact absurd hvalid.1 (by decide)
      · injection hdec2 with e1 e2
        rw [← e1] at hvalid
        exact absurd hvalid.1 (by decide)
  -- head of the normalized path is never a control character or space
  · intro hs0 hn0 c t hct
    rcases sp9 with ⟨r2, hr2, hr2s⟩ | hph
    · have hsch0 : sch = [] := by
        rw [← hscheme_eq]
        exact map_toLower_eq_nil hs0
      obtain ⟨hsnone, hrest⟩ := hnone hsch0
      revert hct
      unfold normPath
      rcases hr : rstripSlashes (urlsplitL u []).path with _ | ⟨y, ys⟩ <;>
        intro hct
      · injection hct with e1 e2
        rw [← e1]
        decide
      · have h3 : y :: ys = c :: t := hct
        injection h3 with e1 e2
        obtain ⟨t3, ht3⟩ := rstripSlashes_head hr
        have hw : cleanURL u = y :: (t3 ++ r2) := by
          rw [← hrest, hr2, ht3]
          rfl
        rw [← e1]
        exact cleanURL_head hw
    · obtain ⟨t2, ht2⟩ := normPath_head hph
      rw [ht2] at hct
      injection hct with e1 e2
      rw [← e1]
      decide

theorem normalizeL_idem {u : List Char} (hsemi : ';' ∉ u)
    (hok : (urlsplitL u []).netloc ≠ [] ∨
      (urlsplitL u []).path.take 2 ≠ ['/', '/']) :
    normalizeL (normalizeL u) = normalizeL u := by
  rcases hsp : splitSchemeL (cleanURL u) with _ | ⟨sch, rest⟩
  · have hU : urlsplitL u [] = urlsplitRest [] (cleanURL u) := by
      simp only [urlsplitL]
      rw [hsp]
    exact normalizeL_idem_aux hU (Or.inl rfl) (fun x hx => hx) hsemi
      (fun _ => ⟨hsp, rfl⟩) hok
  · obtain ⟨c, cs, hdec, hnc, hca, hall, hsch⟩ := splitSchemeL_some_spec hsp
    have hU : urlsplitL u [] = urlsplitRest sch rest := by
      simp only [urlsplitL]
      rw [hsp]
    have hrw : ∀ x ∈ rest, x ∈ cleanURL u := by
      intro x hx
      rw [hdec]
      exact List.mem_append_right _ (List.mem_cons_of_mem _ hx)
    refine normalizeL_idem_aux hU ?_ hrw hsemi ?_ hok
    · right
      refine ⟨c.toLower, cs.map Char.toLower, ?_, isAlpha_toLower hca, ?_, ?_⟩
      · rw [hsch]
        rfl
      · exact all_schemeChar_map_toLower hall
      · rw [hsch]
        exact map_toLower_idem _
    · intro h0
      rw [hsch] at h0
      exact absurd h0 (by simp)

/-- Counterexample to C4's idempotence and trailing-slash claims: on a path
whose last segment carries `;` params, a second normalization moves the
separator (`_splitparams` finds the `;` only once the trailing slash is
gone), and `http:////x` collapses to `http://x`, which renormalizes to
`http://x/`. -/
theorem c4_counterexample :
    normalize_url "http://h/a/;x/" = "http://h/a/;x" ∧
    normalize_url "http://h/a/;x" = "http://h/a;x" ∧
    normalize_url (normalize_url "http://h/a/;x/") ≠
      normalize_url "http://h/a/;x/" ∧
    normalize_url "http:////x" = "http://x" ∧
    normalize_url (normalize_url "http:////x") ≠ normalize_url "http:////x" := by
  decide

/-- **C4** (corrected): `normalize_url` lower-cases scheme and host, strips
trailing slashes, keeps the query and drops the fragment (concrete clause
and the component-dependence clause); a path differing only by a trailing
slash yields the same normalized path component; and normalization is
idempotent for URLs whose text contains no `;` and whose parse does not
pair an empty netloc with a `//`-headed path — without those two provisos
idempotence fails (see the counterexample). -/
theorem c4_normalization_amended :
    (normalize_url "https://X.com/a/" = "https://x.com/a" ∧
      normalize_url "https://x.com/a#frag" = "https://x.com/a") ∧
    (∀ u v : String,
      (urlparseL u.data []).scheme = (urlparseL v.data []).scheme →
      (urlparseL u.data []).netloc.map Char.toLower =
        (urlparseL v.data []).netloc.map Char.toLower →
      normPath (urlparseL u.data []).path =
        normPath (urlparseL v.data []).path →
      (urlparseL u.data []).params = (urlparseL v.data []).params →
      (urlparseL u.data []).query = (urlparseL v.data []).query →
      normalize_url u = normalize_url v) ∧
    (∀ p : List Char, normPath (p ++ ['/']) = normPath p) ∧
    (∀ u : String, ';' ∉ u.data →
      ((urlsplitL u.data []).netloc ≠ [] ∨
        (urlsplitL u.data []).path.take 2 ≠ ['/', '/']) →
      normalize_url (normalize_url u) = normalize_url u) := by
  refine ⟨by decide, ?_, normPath_append_slash, ?_⟩
  · intro u v h1 h2 h3 h4 h5
    have he : normalizeL u.data = normalizeL v.data := by
      simp only [normalizeL]
      rw [h1, h2, h3, h4, h5]
    unfold normalize_url
    rw [he]
  · intro u h1 h2
    exact congrArg String.mk (normalizeL_idem h1 h2)

/-- Witness for the amended C4: the component-dependence clause applied to
the claim's own example pair, and restricted idempotence applied to a
concrete in-boundary URL. -/
theorem c4_witness :
    normalize_url "https://X.com/a/" = normalize_url "https://x.com/a#frag" ∧
    normalize_url (normalize_url "https://docs.example.com/guide?x=1") =
      normalize_url "https://docs.example.com/guide?x=1" := by
  refine ⟨?_, ?_⟩
  · exact c4_normalization_amended.2.1 "https://X.com/a/" "https://x.com/a#frag"
      (by decide) (by decide) (by decide) (by decide) (by decide)
  · exact c4_normalization_amended.2.2.2 "https://docs.example.com/guide?x=1"
      (by decide) (by decide)
